import Mathlib

/-!
# Verification of the httpfs recursive-delete and directory-creation logic

This file shallowly embeds the `RemoveAll` and `MkdirAll` methods of the
`Httpfs` wrapper (src/httpfs.go) together with the Go standard-library path
helpers they use (`path.Join`, `path.Clean`, `strings.Split`), and proves the
specification's claims about them.

The backing filesystem (`absfs.Filer`) is modelled as a record of state
transformers (`Filer`), optionally providing the native bulk-delete
capability (`RemoveAller`).  `removeAllGo` is the Go method verbatim, with
two embedding artifacts: a fuel parameter bounding the recursion depth
(Go's recursion is unbounded; a `none` result means fuel was exhausted, and
is never confused with a genuine return value), and an event trace recording
every call made to the backing filesystem, so that claims about *which*
operations are invoked are statable.

A concrete, well-behaved in-memory backing filesystem (`memFiler`) is
provided for the completeness and termination claims.
-/

set_option autoImplicit false
set_option maxRecDepth 4000

deriving instance DecidableEq for Except

namespace Httpfs

/-! ## Go path helpers over `List Char`

`splitChar sep` is `strings.Split` for a single-character separator.
`cleanPath` is `path.Clean` in its standard segment-stack formulation.
`pathJoin2` is the two-argument `path.Join`. -/

/-- Modelled from Go `strings.Split(s, sep)` for a one-character separator. -/
def splitChar (sep : Char) : List Char → List (List Char)
  | [] => [[]]
  | c :: rest =>
    match splitChar sep rest with
    | [] => [[c]]
    | s :: ss => if c = sep then [] :: s :: ss else (c :: s) :: ss

/-- Join segments with `'/'` (the inverse of `splitChar '/'`). -/
def joinSegs : List (List Char) → List Char
  | [] => []
  | [s] => s
  | s :: ss => s ++ '/' :: joinSegs ss

/-- The segment-stack core of Go `path.Clean`: processes segments left to
right, dropping empty and `.` segments, letting `..` pop a previous segment
(or accumulate, when not rooted), and keeping everything else. `out` is the
output stack, most recent first. -/
def cleanLoop (rooted : Bool) : List (List Char) → List (List Char) → List (List Char)
  | out, [] => out.reverse
  | out, seg :: rest =>
    if seg = [] ∨ seg = ['.'] then cleanLoop rooted out rest
    else if seg = ['.', '.'] then
      match out with
      | [] => if rooted then cleanLoop rooted [] rest else cleanLoop rooted [seg] rest
      | top :: outTail =>
        if top = ['.', '.'] then cleanLoop rooted (seg :: top :: outTail) rest
        else cleanLoop rooted outTail rest
    else cleanLoop rooted (seg :: out) rest

/-- Modelled from Go `path.Clean`. -/
def cleanPath (s : List Char) : List Char :=
  match s with
  | [] => ['.']
  | c :: _ =>
    let rooted := c = '/'
    let segs := cleanLoop rooted [] (splitChar '/' s)
    let body := joinSegs segs
    if rooted then '/' :: body
    else if body = [] then ['.'] else body

/-- Modelled from Go `path.Join(a, b)`: empty elements are dropped, the rest
joined with a slash and cleaned; the join of two empty strings is empty. -/
def pathJoin2 (a b : List Char) : List Char :=
  if a = [] then (if b = [] then [] else cleanPath b)
  else cleanPath (a ++ '/' :: b)

/-- `path.Join` on strings. -/
def pathJoin (a b : String) : String := String.mk (pathJoin2 a.data b.data)

/-- `strings.Split(s, "/")` on strings. -/
def goSplit (s : String) : List String := (splitChar '/' s.data).map String.mk

/-! ## Error and metadata model -/

/-- Error kinds of the backing filesystem.  `os.IsNotExist e` is modelled by
`e = notFound` and `os.IsExist e` by `e = alreadyExists`; every other error
is opaque. -/
inductive FsErr where
  | notFound
  | alreadyExists
  | notEmpty
  | other (code : Nat)
deriving DecidableEq, Repr

/-- The slice of `os.FileInfo` that `RemoveAll` reads: `Name()` and `IsDir()`. -/
structure FInfo where
  name : String
  isDir : Bool
deriving DecidableEq, Repr

/-- One call to the backing filesystem together with its result; `η` is the
type of directory handles. -/
inductive Ev (η : Type) where
  | statOk (p : String) (i : FInfo)
  | statErr (p : String) (e : FsErr)
  | removeOk (p : String)
  | removeErr (p : String) (e : FsErr)
  | openOk (p : String) (h : η)
  | openErr (p : String) (e : FsErr)
  | readdirOk (h : η) (l : List FInfo)
  | readdirErr (h : η) (e : FsErr)
  | closeEv (h : η)
  | nativeOk (p : String)
  | nativeErr (p : String) (e : FsErr)
deriving DecidableEq, Repr

/-- The backing filesystem (`absfs.Filer`) as used by `RemoveAll`: state
transformers over a state type `σ`, with directory handles of type `η`.
`native` is `some` exactly when the filesystem implements the optional
`RemoveAller` interface. -/
structure Filer (σ η : Type) where
  stat : σ → String → Except FsErr FInfo × σ
  remove : σ → String → Except FsErr Unit × σ
  openFile : σ → String → Nat → Nat → Except FsErr η × σ
  readdir : σ → η → Nat → Except FsErr (List FInfo) × σ
  close : σ → η → σ
  native : Option (σ → String → Except FsErr Unit × σ)

/-- `os.O_RDONLY`. -/
def oRDONLY : Nat := 0

/-- Result of one (possibly fuel-exhausted) `RemoveAll` invocation:
return value (`none` = out of fuel), final backing state, event trace. -/
abbrev RRes (σ η : Type) := Option (Except FsErr Unit) × σ × List (Ev η)

/-- The child loop of `RemoveAll`, with the recursive call abstracted as
`rec`:
`for _, info := range infos { if name is "." or ".." continue;`
`  if err := RemoveAll(path.Join(pathname, name)); err != nil return err }`. -/
def removeChildrenAux {σ η : Type} (rec : σ → String → RRes σ η) (parent : String) :
    σ → List FInfo → RRes σ η
  | s, [] => (some (Except.ok ()), s, [])
  | s, info :: rest =>
    if info.name = "." ∨ info.name = ".." then removeChildrenAux rec parent s rest
    else
      match rec s (pathJoin parent info.name) with
      | (none, s1, tr) => (none, s1, tr)
      | (some (Except.error e), s1, tr) => (some (Except.error e), s1, tr)
      | (some (Except.ok _), s1, tr) =>
        match removeChildrenAux rec parent s1 rest with
        | (r2, s2, tr2) => (r2, s2, tr ++ tr2)

/-- One unfolding of the body of `Httpfs.RemoveAll` (src/httpfs.go), with the
recursive call abstracted as `rec`.  Follows the Go source line by line:
native `RemoveAller` delegation with NotFound swallowed; `Stat` with NotFound
swallowed; non-directories removed directly; directories opened read-only,
listed, the handle closed *before* the listing error is checked; children
processed in listing order with `.`/`..` skipped and the first failure
returned; then the final `Remove` with the not-really-empty tolerance
re-`Stat`. -/
def removeAllStep {σ η : Type} (F : Filer σ η) (rec : σ → String → RRes σ η)
    (s : σ) (pathname : String) : RRes σ η :=
  match F.native with
  | some ra =>
    match ra s pathname with
    | (Except.ok _, s1) => (some (Except.ok ()), s1, [Ev.nativeOk pathname])
    | (Except.error e, s1) =>
      if e = FsErr.notFound then (some (Except.ok ()), s1, [Ev.nativeErr pathname e])
      else (some (Except.error e), s1, [Ev.nativeErr pathname e])
  | none =>
    match F.stat s pathname with
    | (Except.error e, s1) =>
      if e = FsErr.notFound then (some (Except.ok ()), s1, [Ev.statErr pathname e])
      else (some (Except.error e), s1, [Ev.statErr pathname e])
    | (Except.ok info, s1) =>
      if info.isDir = false then
        match F.remove s1 pathname with
        | (Except.ok _, s2) =>
          (some (Except.ok ()), s2, [Ev.statOk pathname info, Ev.removeOk pathname])
        | (Except.error e, s2) =>
          (some (Except.error e), s2, [Ev.statOk pathname info, Ev.removeErr pathname e])
      else
        match F.openFile s1 pathname oRDONLY 0 with
        | (Except.error e, s2) =>
          if e = FsErr.notFound then
            (some (Except.ok ()), s2, [Ev.statOk pathname info, Ev.openErr pathname e])
          else
            (some (Except.error e), s2, [Ev.statOk pathname info, Ev.openErr pathname e])
        | (Except.ok h, s2) =>
          match F.readdir s2 h 0 with
          | (Except.error e, s3) =>
            (some (Except.error e), F.close s3 h,
              [Ev.statOk pathname info, Ev.openOk pathname h, Ev.readdirErr h e, Ev.closeEv h])
          | (Except.ok infos, s3) =>
            match removeChildrenAux rec pathname (F.close s3 h) infos with
            | (none, s5, tr) =>
              (none, s5,
                [Ev.statOk pathname info, Ev.openOk pathname h, Ev.readdirOk h infos,
                  Ev.closeEv h] ++ tr)
            | (some (Except.error e), s5, tr) =>
              (some (Except.error e), s5,
                [Ev.statOk pathname info, Ev.openOk pathname h, Ev.readdirOk h infos,
                  Ev.closeEv h] ++ tr)
            | (some (Except.ok _), s5, tr) =>
              match F.remove s5 pathname with
              | (Except.ok _, s6) =>
                (some (Except.ok ()), s6,
                  [Ev.statOk pathname info, Ev.openOk pathname h, Ev.readdirOk h infos,
                    Ev.closeEv h] ++ tr ++ [Ev.removeOk pathname])
              | (Except.error e, s6) =>
                match F.stat s6 pathname with
                | (Except.error e2, s7) =>
                  if e2 = FsErr.notFound then
                    (some (Except.ok ()), s7,
                      [Ev.statOk pathname info, Ev.openOk pathname h, Ev.readdirOk h infos,
                        Ev.closeEv h] ++ tr ++ [Ev.removeErr pathname e, Ev.statErr pathname e2])
                  else
                    (some (Except.error e), s7,
                      [Ev.statOk pathname info, Ev.openOk pathname h, Ev.readdirOk h infos,
                        Ev.closeEv h] ++ tr ++ [Ev.removeErr pathname e, Ev.statErr pathname e2])
                | (Except.ok i2, s7) =>
                  (some (Except.error e), s7,
                    [Ev.statOk pathname info, Ev.openOk pathname h, Ev.readdirOk h infos,
                      Ev.closeEv h] ++ tr ++ [Ev.removeErr pathname e, Ev.statOk pathname i2])

/-- `Httpfs.RemoveAll` with a fuel bound on the recursion depth. -/
def removeAllGo {σ η : Type} (F : Filer σ η) : Nat → σ → String → RRes σ η
  | 0, s, _ => (none, s, [])
  | fuel + 1, s, pathname => removeAllStep F (removeAllGo F fuel) s pathname

/-! ## Trace observations -/

/-- Handles of successful `OpenFile` calls, in order. -/
def openedHandles {η : Type} : List (Ev η) → List η
  | [] => []
  | Ev.openOk _ h :: r => h :: openedHandles r
  | _ :: r => openedHandles r

/-- Handles of `Close` calls, in order. -/
def closedHandles {η : Type} : List (Ev η) → List η
  | [] => []
  | Ev.closeEv h :: r => h :: closedHandles r
  | _ :: r => closedHandles r

/-- Every error returned by a backing-filesystem call in the trace, in order. -/
def errsOf {η : Type} : List (Ev η) → List FsErr
  | [] => []
  | Ev.statErr _ e :: r => e :: errsOf r
  | Ev.removeErr _ e :: r => e :: errsOf r
  | Ev.openErr _ e :: r => e :: errsOf r
  | Ev.readdirErr _ e :: r => e :: errsOf r
  | Ev.nativeErr _ e :: r => e :: errsOf r
  | _ :: r => errsOf r

/-- Holds (started with flag `none`) of the trace of an invocation that
returned success: every failed call is either a NotFound answer to
`Stat`/`OpenFile`/native delegation (swallowed at the top of the recursion
for the subtree in question), or a failed final `Remove` immediately
followed by the tolerance re-`Stat` reporting NotFound on the same path.
The flag `some p` records that the previous event was a failed `Remove` of
`p` still awaiting its tolerance re-`Stat`. -/
def okTrace {η : Type} : Option String → List (Ev η) → Bool
  | pending, [] => pending = none
  | some p, Ev.statErr q e :: r => q = p && e = FsErr.notFound && okTrace none r
  | some _, _ :: _ => false
  | none, Ev.statErr _ e :: r => e = FsErr.notFound && okTrace none r
  | none, Ev.openErr _ e :: r => e = FsErr.notFound && okTrace none r
  | none, Ev.nativeErr _ e :: r => e = FsErr.notFound && okTrace none r
  | none, Ev.readdirErr _ _ :: _ => false
  | none, Ev.removeErr p _ :: r => okTrace (some p) r
  | none, _ :: r => okTrace none r

/-! ## A concrete, well-behaved backing filesystem

State: an association list from absolute paths to an is-directory flag.
`Readdir` lists the synthetic `.` and `..` entries first (the behavior the
Go code defends against) followed by the real children; `Remove` refuses to
remove a directory that still has real children. -/

/-- First-match lookup in the path table. -/
def lookupFs (t : List (String × Bool)) (p : String) : Option Bool :=
  match t with
  | [] => none
  | kv :: rest => if kv.1 = p then some kv.2 else lookupFs rest p

/-- The characters that prefix every child of directory `d`: `d ++ "/"`,
except that the root `/` already ends in a slash. -/
def dirPref (d : String) : List Char :=
  if d.data = ['/'] then ['/'] else d.data ++ ['/']

/-- `stripPre a b`: the remainder of `b` after its leading copy of `a`. -/
def stripPre : List Char → List Char → Option (List Char)
  | [], rest => some rest
  | _ :: _, [] => none
  | a :: as, b :: bs => if a = b then stripPre as bs else none

/-- If `q` is an immediate child of directory `d`, its name; otherwise
`none`. -/
def childNameOf (d q : String) : Option String :=
  match stripPre (dirPref d) q.data with
  | none => none
  | some rest =>
    if rest ≠ [] ∧ ¬ ('/' ∈ rest) then some (String.mk rest) else none

/-- The real (non-synthetic) children of `d` in table order. -/
def childrenOf (t : List (String × Bool)) (d : String) : List FInfo :=
  t.filterMap (fun kv => (childNameOf d kv.1).map (fun n => FInfo.mk n kv.2))

/-- Whether `d` has any real child entry. -/
def hasChild (t : List (String × Bool)) (d : String) : Bool :=
  t.any (fun kv => (childNameOf d kv.1).isSome)

/-- Last slash-separated component of `p`. -/
def baseNameOf (p : String) : String :=
  String.mk ((splitChar '/' p.data).getLastD [])

/-- Concrete `Stat`. -/
def statM (t : List (String × Bool)) (p : String) : Except FsErr FInfo :=
  match lookupFs t p with
  | none => Except.error FsErr.notFound
  | some d => Except.ok (FInfo.mk (baseNameOf p) d)

/-- Concrete `Remove`: NotFound for an absent path, NotEmpty for a directory
with remaining real children, otherwise the entry is deleted. -/
def removeM (t : List (String × Bool)) (p : String) :
    Except FsErr Unit × List (String × Bool) :=
  match lookupFs t p with
  | none => (Except.error FsErr.notFound, t)
  | some _ =>
    if hasChild t p then (Except.error FsErr.notEmpty, t)
    else (Except.ok (), t.filter (fun kv => !(kv.1 == p)))

/-- Concrete `OpenFile`: the handle is the path itself. -/
def openM (t : List (String × Bool)) (p : String) : Except FsErr String :=
  match lookupFs t p with
  | none => Except.error FsErr.notFound
  | some _ => Except.ok p

/-- Concrete `Readdir`: synthetic `.` and `..` entries first, then the real
children. -/
def readdirM (t : List (String × Bool)) (h : String) : Except FsErr (List FInfo) :=
  match lookupFs t h with
  | none => Except.error (FsErr.other 1)
  | some false => Except.error (FsErr.other 2)
  | some true =>
    Except.ok (FInfo.mk "." true :: FInfo.mk ".." true :: childrenOf t h)

/-- The concrete backing filesystem, without the native bulk-delete. -/
def memFiler : Filer (List (String × Bool)) String where
  stat := fun s p => (statM s p, s)
  remove := fun s p => removeM s p
  openFile := fun s p _ _ => (openM s p, s)
  readdir := fun s h _ => (readdirM s h, s)
  close := fun s _ => s
  native := none

/-! ## MkdirAll -/

/-- The loop of `Httpfs.MkdirAll` (src/httpfs.go) with the backing `Mkdir`
abstracted: `p := "/"`, then for each segment of `strings.Split(name, "/")`,
skip empty segments, set `p = path.Join(p, seg)`, call `Mkdir(p, perm)`, and
return the error unless `os.IsExist(err)`.  The third component records the
paths passed to `Mkdir`, in order. -/
def mkdirAllLoop {σ : Type} (mk : σ → String → Nat → Except FsErr Unit × σ) (perm : Nat) :
    σ → String → List String → Except FsErr Unit × σ × List String
  | s, _, [] => (Except.ok (), s, [])
  | s, p, seg :: rest =>
    if seg = "" then mkdirAllLoop mk perm s p rest
    else
      match mk s (pathJoin p seg) perm with
      | (Except.ok _, s1) =>
        match mkdirAllLoop mk perm s1 (pathJoin p seg) rest with
        | (r, s2, calls) => (r, s2, pathJoin p seg :: calls)
      | (Except.error e, s1) =>
        if e = FsErr.alreadyExists then
          match mkdirAllLoop mk perm s1 (pathJoin p seg) rest with
          | (r, s2, calls) => (r, s2, pathJoin p seg :: calls)
        else (Except.error e, s1, [pathJoin p seg])

/-- `Httpfs.MkdirAll`. -/
def mkdirAllGo {σ : Type} (mk : σ → String → Nat → Except FsErr Unit × σ)
    (s : σ) (name : String) (perm : Nat) : Except FsErr Unit × σ × List String :=
  mkdirAllLoop mk perm s "/" (goSplit name)

/-- The cumulative `path.Join` targets `MkdirAll` actually addresses:
starting from `"/"`, join each non-empty segment in turn. -/
def joinTargetsFrom : String → List String → List String
  | _, [] => []
  | p, seg :: rest =>
    if seg = "" then joinTargetsFrom p rest
    else pathJoin p seg :: joinTargetsFrom (pathJoin p seg) rest

/-- All `Mkdir` targets of `MkdirAll name`. -/
def mkdirTargets (name : String) : List String :=
  joinTargetsFrom "/" (goSplit name)

/-- Written from the claim text, for comparison with the code: the non-empty
slash-separated prefixes of `name` itself (each truncation of `name` at a
segment boundary), shortest to longest. -/
def specSlashPrefixes (name : String) : List String :=
  ((List.range (splitChar '/' name.data).length).map (fun i =>
      String.mk (joinSegs ((splitChar '/' name.data).take (i + 1))))).filter
    (fun s => !(s == ""))

/-! ## Well-formed concrete states

A well-formed key is an absolute, already-clean path: `/` followed by
slash-joined segments that are non-empty, slash-free and not the synthetic
`.` or `..`. -/

/-- A valid path segment. -/
def validSeg (sg : List Char) : Prop :=
  sg ≠ [] ∧ '/' ∉ sg ∧ sg ≠ ['.'] ∧ sg ≠ ['.', '.']

instance validSeg.dec (sg : List Char) : Decidable (validSeg sg) := by
  unfold validSeg; infer_instance

/-- A well-formed absolute path. -/
def WFkey (p : String) : Prop :=
  ∃ segs, (∀ sg ∈ segs, validSeg sg) ∧ p.data = '/' :: joinSegs segs

/-- All keys of the state are well-formed. -/
def WFfs (t : List (String × Bool)) : Prop := ∀ kv ∈ t, WFkey kv.1

/-- Executable check for `WFkey`. -/
def WFkeyB (p : String) : Bool :=
  match p.data with
  | [] => false
  | c :: body =>
    decide (c = '/') &&
      (decide (body = []) || (splitChar '/' body).all (fun sg => decide (validSeg sg)))

/-- Executable check for `WFfs`. -/
def WFfsB (t : List (String × Bool)) : Bool := t.all (fun kv => WFkeyB kv.1)

/-! ## Concrete fixtures used by the witnesses -/

/-- A ten-level-deep directory chain with a single file at the bottom. -/
def tenDeep : List (String × Bool) :=
  [("/d1", true), ("/d1/d2", true), ("/d1/d2/d3", true), ("/d1/d2/d3/d4", true),
   ("/d1/d2/d3/d4/d5", true), ("/d1/d2/d3/d4/d5/d6", true),
   ("/d1/d2/d3/d4/d5/d6/d7", true), ("/d1/d2/d3/d4/d5/d6/d7/d8", true),
   ("/d1/d2/d3/d4/d5/d6/d7/d8/d9", true),
   ("/d1/d2/d3/d4/d5/d6/d7/d8/d9/f10", false)]

/-- Backing filesystem whose `Stat` reports NotFound under `/gone` and an
opaque error elsewhere. -/
def fStatErr : Filer Unit Unit where
  stat := fun s p =>
    (if p = "/gone" then Except.error FsErr.notFound else Except.error (FsErr.other 3), s)
  remove := fun s _ => (Except.ok (), s)
  openFile := fun s _ _ _ => (Except.error (FsErr.other 9), s)
  readdir := fun s _ _ => (Except.ok [], s)
  close := fun s _ => s
  native := none

/-- Backing filesystem advertising the native bulk-delete: NotFound under
`/gone`, success elsewhere. -/
def fNative : Filer Unit Unit where
  stat := fun s _ => (Except.error (FsErr.other 8), s)
  remove := fun s _ => (Except.error (FsErr.other 8), s)
  openFile := fun s _ _ _ => (Except.error (FsErr.other 8), s)
  readdir := fun s _ _ => (Except.error (FsErr.other 8), s)
  close := fun s _ => s
  native := some (fun s p =>
    (if p = "/gone" then Except.error FsErr.notFound else Except.ok (), s))

/-- Backing filesystem with a single plain file `/f` whose removal fails
with an opaque error. -/
def fFileErr : Filer Unit Unit where
  stat := fun s p =>
    (if p = "/f" then Except.ok (FInfo.mk "f" false) else Except.error FsErr.notFound, s)
  remove := fun s _ => (Except.error (FsErr.other 7), s)
  openFile := fun s _ _ _ => (Except.error (FsErr.other 9), s)
  readdir := fun s _ _ => (Except.ok [], s)
  close := fun s _ => s
  native := none

/-- Backing filesystem with directory `/d` listing `., a, b, c`; removing
`/d/b` fails with an opaque error, everything else succeeds. -/
def fChildErr : Filer Unit String where
  stat := fun s p =>
    (if p = "/d" then Except.ok (FInfo.mk "d" true)
     else if p = "/d/a" then Except.ok (FInfo.mk "a" false)
     else if p = "/d/b" then Except.ok (FInfo.mk "b" false)
     else if p = "/d/c" then Except.ok (FInfo.mk "c" false)
     else Except.error FsErr.notFound, s)
  remove := fun s p =>
    (if p = "/d/b" then Except.error (FsErr.other 7) else Except.ok (), s)
  openFile := fun s p _ _ => (Except.ok p, s)
  readdir := fun s _ _ =>
    (Except.ok [FInfo.mk "." true, FInfo.mk "a" false, FInfo.mk "b" false,
      FInfo.mk "c" false], s)
  close := fun s _ => s
  native := none

/-- Backing filesystem whose final `Remove` of the empty directory `/d`
fails with NotEmpty but marks the state, after which `Stat` reports
NotFound (the memfs-like behavior the tolerance check masks). -/
def fTolerant : Filer Bool Unit where
  stat := fun s p =>
    (if s then Except.error FsErr.notFound
     else if p = "/d" then Except.ok (FInfo.mk "d" true)
     else Except.error FsErr.notFound, s)
  remove := fun _ _ => (Except.error FsErr.notEmpty, true)
  openFile := fun s _ _ _ => (Except.ok (), s)
  readdir := fun s _ _ => (Except.ok [], s)
  close := fun s _ => s
  native := none

/-- Backing filesystem whose `Remove` of the empty directory `/d` fails with
NotEmpty and whose `Stat` keeps reporting the directory present. -/
def fStubborn : Filer Unit Unit where
  stat := fun s p =>
    (if p = "/d" then Except.ok (FInfo.mk "d" true) else Except.error FsErr.notFound, s)
  remove := fun s _ => (Except.error FsErr.notEmpty, s)
  openFile := fun s _ _ _ => (Except.ok (), s)
  readdir := fun s _ _ => (Except.ok [], s)
  close := fun s _ => s
  native := none

/-- Backing filesystem whose `Readdir` fails with an opaque error. -/
def fListErr : Filer Unit Unit where
  stat := fun s p =>
    (if p = "/d" then Except.ok (FInfo.mk "d" true) else Except.error FsErr.notFound, s)
  remove := fun s _ => (Except.ok (), s)
  openFile := fun s _ _ _ => (Except.ok (), s)
  readdir := fun s _ _ => (Except.error (FsErr.other 4), s)
  close := fun s _ => s
  native := none

/-- A `Mkdir` that always succeeds, recording nothing. -/
def mkAlwaysOk : Unit → String → Nat → Except FsErr Unit × Unit :=
  fun s _ _ => (Except.ok (), s)

/-- State-independent `Mkdir` outcomes: creating `/a/b` fails with an opaque
error, everything else succeeds. -/
def mkFailAtAB : String → Except FsErr Unit :=
  fun q => if q = "/a/b" then Except.error (FsErr.other 5) else Except.ok ()

/-- The C7 property of a single invocation result: a returned error occurs
verbatim in the trace, and a success has an `okTrace` trace. -/
def errProp {σ η : Type} (res : RRes σ η) : Prop :=
  (∀ e, res.1 = some (Except.error e) → e ∈ errsOf res.2.2) ∧
  (res.1 = some (Except.ok ()) → okTrace none res.2.2 = true)

/-- Length of the longest key in the state. -/
def maxKeyLen (t : List (String × Bool)) : Nat :=
  t.foldr (fun kv m => max kv.1.data.length m) 0

/-! # Theorems -/

/-! ## The child loop -/

theorem removeChildrenAux_skip {σ η : Type} (rec : σ → String → RRes σ η) (parent : String)
    (s : σ) (info : FInfo) (rest : List FInfo)
    (h : info.name = "." ∨ info.name = "..") :
    removeChildrenAux rec parent s (info :: rest) = removeChildrenAux rec parent s rest := by
  simp only [removeChildrenAux]
  rw [if_pos h]

theorem removeChildrenAux_child_error {σ η : Type} (rec : σ → String → RRes σ η)
    (parent : String) (s s1 : σ) (c : FInfo) (post : List FInfo) (e : FsErr)
    (tr : List (Ev η)) (h1 : ¬ (c.name = "." ∨ c.name = ".."))
    (h2 : rec s (pathJoin parent c.name) = (some (Except.error e), s1, tr)) :
    removeChildrenAux rec parent s (c :: post) = (some (Except.error e), s1, tr) := by
  simp only [removeChildrenAux]
  rw [if_neg h1, h2]

theorem removeChildrenAux_append_ok {σ η : Type} (rec : σ → String → RRes σ η)
    (parent : String) :
    ∀ (pre : List FInfo) (s s5 : σ) (tr1 : List (Ev η)),
      removeChildrenAux rec parent s pre = (some (Except.ok ()), s5, tr1) →
      ∀ rest, removeChildrenAux rec parent s (pre ++ rest) =
        ((removeChildrenAux rec parent s5 rest).1,
         (removeChildrenAux rec parent s5 rest).2.1,
         tr1 ++ (removeChildrenAux rec parent s5 rest).2.2) := by
  intro pre
  induction pre with
  | nil =>
    intro s s5 tr1 h rest
    simp only [removeChildrenAux, Prod.mk.injEq] at h
    obtain ⟨-, hs, htr⟩ := h
    subst hs; subst htr
    simp
  | cons info pre ih =>
    intro s s5 tr1 h rest
    by_cases hsyn : info.name = "." ∨ info.name = ".."
    · rw [removeChildrenAux_skip rec parent s info pre hsyn] at h
      rw [List.cons_append, removeChildrenAux_skip rec parent s info (pre ++ rest) hsyn]
      exact ih s s5 tr1 h rest
    · rw [List.cons_append]
      simp only [removeChildrenAux, if_neg hsyn] at h ⊢
      rcases hrec : rec s (pathJoin parent info.name) with ⟨r1, sa, tra⟩
      rcases r1 with _ | (e | u)
      · rw [hrec] at h; simp at h
      · rw [hrec] at h; simp at h
      · rw [hrec] at h
        dsimp only [] at h ⊢
        rcases hl : removeChildrenAux rec parent sa pre with ⟨r2, s2, tr2⟩
        rw [hl] at h
        simp only [Prod.mk.injEq] at h
        obtain ⟨hr2, hs2, htr⟩ := h
        have hpre : removeChildrenAux rec parent sa pre = (some (Except.ok ()), s5, tr2) := by
          rw [hl, hr2, hs2]
        rw [ih sa s5 tr2 hpre rest]
        simp [← htr, List.append_assoc]

/-! ## Top-of-recursion behavior -/

/-- **C2.** A path absent from the backing filesystem is a success: in the
manual walk, if `Stat` fails, `RemoveAll` returns nil when the error is
NotFound and propagates the error unchanged otherwise, in both cases
immediately (one `Stat` event, no other calls); in the native delegation, a
NotFound result is likewise converted to success. -/
theorem removeAll_absent_path {σ η : Type} (F : Filer σ η) (fuel : Nat) (s : σ)
    (p : String) :
    (∀ e s1, F.native = none → F.stat s p = (Except.error e, s1) →
      removeAllGo F (fuel + 1) s p =
        (some (if e = FsErr.notFound then Except.ok () else Except.error e), s1,
          [Ev.statErr p e])) ∧
    (∀ ra s1, F.native = some ra → ra s p = (Except.error FsErr.notFound, s1) →
      removeAllGo F (fuel + 1) s p = (some (Except.ok ()), s1, [Ev.nativeErr p FsErr.notFound])) := by
  constructor
  · intro e s1 hn hs
    simp only [removeAllGo, removeAllStep, hn, hs]
    by_cases he : e = FsErr.notFound <;> simp [he]
  · intro ra s1 hn hs
    simp only [removeAllGo, removeAllStep, hn, hs]
    simp

/-- Witness for C2: a `Stat` error other than NotFound is propagated with a
single `Stat` call; a NotFound from `Stat` or from the native bulk-delete is
success. -/
theorem removeAll_absent_path_witness :
    removeAllGo fStatErr 1 () "/x" =
      (some (Except.error (FsErr.other 3)), (), [Ev.statErr "/x" (FsErr.other 3)]) ∧
    removeAllGo fStatErr 1 () "/gone" =
      (some (Except.ok ()), (), [Ev.statErr "/gone" FsErr.notFound]) ∧
    removeAllGo fNative 1 () "/gone" =
      (some (Except.ok ()), (), [Ev.nativeErr "/gone" FsErr.notFound]) := by
  refine ⟨?_, ?_, ?_⟩
  · simpa using (removeAll_absent_path fStatErr 0 () "/x").1 (FsErr.other 3) () rfl rfl
  · simpa using (removeAll_absent_path fStatErr 0 () "/gone").1 FsErr.notFound () rfl rfl
  · exact (removeAll_absent_path fNative 0 () "/gone").2 _ () rfl rfl

/-- **C3.** When the backing filesystem implements `RemoveAller`,
`RemoveAll` delegates to the native bulk-delete: the whole interaction is
that single native call (no `Stat`, `OpenFile`, `Readdir` or `Remove`
events), a NotFound result is converted to success, and any other result is
returned unchanged. -/
theorem removeAll_native_delegation {σ η : Type} (F : Filer σ η) (fuel : Nat) (s : σ)
    (p : String) (ra : σ → String → Except FsErr Unit × σ) (hn : F.native = some ra) :
    (∀ u s1, ra s p = (Except.ok u, s1) →
      removeAllGo F (fuel + 1) s p = (some (Except.ok ()), s1, [Ev.nativeOk p])) ∧
    (∀ e s1, ra s p = (Except.error e, s1) →
      removeAllGo F (fuel + 1) s p =
        (some (if e = FsErr.notFound then Except.ok () else Except.error e), s1,
          [Ev.nativeErr p e])) := by
  constructor
  · intro u s1 hs
    simp only [removeAllGo, removeAllStep, hn, hs]
  · intro e s1 hs
    simp only [removeAllGo, removeAllStep, hn, hs]
    by_cases he : e = FsErr.notFound <;> simp [he]

/-- Witness for C3: the native bulk-delete is invoked, its NotFound result
converted to success and its success returned, with no other call. -/
theorem removeAll_native_delegation_witness :
    removeAllGo fNative 1 () "/a" = (some (Except.ok ()), (), [Ev.nativeOk "/a"]) ∧
    removeAllGo fNative 1 () "/gone" =
      (some (Except.ok ()), (), [Ev.nativeErr "/gone" FsErr.notFound]) := by
  constructor
  · exact (removeAll_native_delegation fNative 0 () "/a" _ rfl).1 () () rfl
  · simpa using (removeAll_native_delegation fNative 0 () "/gone" _ rfl).2
      FsErr.notFound () rfl

/-- **C4.** On an existing non-directory entry, `RemoveAll` is the
single-entry `Remove`: after the initial `Stat`, exactly one `Remove` of the
path itself is issued, no recursion happens, and `Remove`'s result, success
or failure, is returned directly. -/
theorem removeAll_plain_file {σ η : Type} (F : Filer σ η) (fuel : Nat) (s s1 : σ)
    (p : String) (info : FInfo) (hn : F.native = none)
    (hs : F.stat s p = (Except.ok info, s1)) (hd : info.isDir = false) :
    (∀ u s2, F.remove s1 p = (Except.ok u, s2) →
      removeAllGo F (fuel + 1) s p =
        (some (Except.ok ()), s2, [Ev.statOk p info, Ev.removeOk p])) ∧
    (∀ e s2, F.remove s1 p = (Except.error e, s2) →
      removeAllGo F (fuel + 1) s p =
        (some (Except.error e), s2, [Ev.statOk p info, Ev.removeErr p e])) := by
  constructor
  · intro u s2 hr
    simp only [removeAllGo, removeAllStep, hn, hs, hd, hr]
    simp
  · intro e s2 hr
    simp only [removeAllGo, removeAllStep, hn, hs, hd, hr]
    simp

/-- Witness for C4: removing a plain file whose `Remove` fails propagates
exactly that error after one `Stat` and one `Remove`. -/
theorem removeAll_plain_file_witness :
    removeAllGo fFileErr 1 () "/f" =
      (some (Except.error (FsErr.other 7)), (),
        [Ev.statOk "/f" (FInfo.mk "f" false), Ev.removeErr "/f" (FsErr.other 7)]) := by
  exact (removeAll_plain_file fFileErr 0 () () "/f" (FInfo.mk "f" false) rfl rfl rfl).2
    (FsErr.other 7) () rfl

/-! ## Fail-fast and tolerance -/

/-- **C5.** In the manual walk the children are processed in listing order:
if the recursive removal of child `c` fails, every sibling listed before `c`
has already been processed (trace `tr1`), the failing child contributes its
own trace `tr2`, and `RemoveAll` returns `c`'s error as-is with the trace
ending at `tr2` — no event (in particular no `Remove`) for any sibling
listed after `c`, nor for the parent directory itself. -/
theorem removeAll_failfast_child {σ η : Type} (F : Filer σ η) (fuel : Nat)
    (s s1 s2 s3 s5 s6 : σ) (p : String) (info : FInfo) (h : η)
    (pre post : List FInfo) (c : FInfo) (tr1 tr2 : List (Ev η)) (e : FsErr)
    (hn : F.native = none) (hs : F.stat s p = (Except.ok info, s1))
    (hd : info.isDir = true) (ho : F.openFile s1 p oRDONLY 0 = (Except.ok h, s2))
    (hr : F.readdir s2 h 0 = (Except.ok (pre ++ c :: post), s3))
    (hpre : removeChildrenAux (removeAllGo F fuel) p (F.close s3 h) pre =
      (some (Except.ok ()), s5, tr1))
    (hcn : ¬ (c.name = "." ∨ c.name = ".."))
    (hchild : removeAllGo F fuel s5 (pathJoin p c.name) =
      (some (Except.error e), s6, tr2)) :
    removeAllGo F (fuel + 1) s p =
      (some (Except.error e), s6,
        [Ev.statOk p info, Ev.openOk p h, Ev.readdirOk h (pre ++ c :: post),
          Ev.closeEv h] ++ tr1 ++ tr2) := by
  have hcc : removeChildrenAux (removeAllGo F fuel) p (F.close s3 h) (pre ++ c :: post) =
      (some (Except.error e), s6, tr1 ++ tr2) := by
    rw [removeChildrenAux_append_ok (removeAllGo F fuel) p pre (F.close s3 h) s5 tr1 hpre
        (c :: post),
      removeChildrenAux_child_error (removeAllGo F fuel) p s5 s6 c post e tr2 hcn hchild]
  simp only [removeAllGo, removeAllStep, hn, hs, hd, ho, hr, hcc]
  simp [List.append_assoc]

/-- Witness for C5: in a directory listing `., a, b, c` where removing `b`
fails, `a` is removed, the error of `b` is returned, and no event concerns
`c` or the parent. -/
theorem removeAll_failfast_child_witness :
    removeAllGo fChildErr 2 () "/d" =
      (some (Except.error (FsErr.other 7)), (),
        [Ev.statOk "/d" (FInfo.mk "d" true), Ev.openOk "/d" "/d",
          Ev.readdirOk "/d" [FInfo.mk "." true, FInfo.mk "a" false, FInfo.mk "b" false,
            FInfo.mk "c" false],
          Ev.closeEv "/d", Ev.statOk "/d/a" (FInfo.mk "a" false), Ev.removeOk "/d/a",
          Ev.statOk "/d/b" (FInfo.mk "b" false), Ev.removeErr "/d/b" (FsErr.other 7)]) := by
  simpa using removeAll_failfast_child fChildErr 1 () () () () () () "/d"
    (FInfo.mk "d" true) "/d" [FInfo.mk "." true, FInfo.mk "a" false] [FInfo.mk "c" false]
    (FInfo.mk "b" false)
    [Ev.statOk "/d/a" (FInfo.mk "a" false), Ev.removeOk "/d/a"]
    [Ev.statOk "/d/b" (FInfo.mk "b" false), Ev.removeErr "/d/b" (FsErr.other 7)]
    (FsErr.other 7) rfl rfl rfl rfl rfl (by decide) (by decide) (by decide)

/-- **C6.** When, after all children have been removed successfully, the
final `Remove` of the directory fails: if the subsequent re-`Stat` reports
NotFound the whole operation is success, and otherwise (re-`Stat` succeeds,
or fails with a different error) the original `Remove` error is propagated
unchanged. -/
theorem removeAll_final_remove_tolerance {σ η : Type} (F : Filer σ η) (fuel : Nat)
    (s s1 s2 s3 s5 s6 : σ) (p : String) (info : FInfo) (h : η) (infos : List FInfo)
    (tr : List (Ev η)) (e : FsErr)
    (hn : F.native = none) (hs : F.stat s p = (Except.ok info, s1))
    (hd : info.isDir = true) (ho : F.openFile s1 p oRDONLY 0 = (Except.ok h, s2))
    (hr : F.readdir s2 h 0 = (Except.ok infos, s3))
    (hc : removeChildrenAux (removeAllGo F fuel) p (F.close s3 h) infos =
      (some (Except.ok ()), s5, tr))
    (hrm : F.remove s5 p = (Except.error e, s6)) :
    (∀ s7, F.stat s6 p = (Except.error FsErr.notFound, s7) →
      (removeAllGo F (fuel + 1) s p).1 = some (Except.ok ())) ∧
    (∀ r2 s7, F.stat s6 p = (r2, s7) → r2 ≠ Except.error FsErr.notFound →
      (removeAllGo F (fuel + 1) s p).1 = some (Except.error e)) := by
  constructor
  · intro s7 hst
    simp only [removeAllGo, removeAllStep, hn, hs, hd, ho, hr, hc, hrm, hst]
    simp
  · intro r2 s7 hst hne
    rcases r2 with e2 | i2
    · have he2 : ¬ (e2 = FsErr.notFound) := fun hh => hne (by rw [hh])
      simp only [removeAllGo, removeAllStep, hn, hs, hd, ho, hr, hc, hrm, hst]
      simp [he2]
    · simp only [removeAllGo, removeAllStep, hn, hs, hd, ho, hr, hc, hrm, hst]
      simp

/-- Witness for C6: a memfs-like filesystem whose final directory `Remove`
fails with NotEmpty although the directory is gone yields success; one where
the directory genuinely persists yields the NotEmpty error. -/
theorem removeAll_final_remove_tolerance_witness :
    (removeAllGo fTolerant 1 false "/d").1 = some (Except.ok ()) ∧
    (removeAllGo fStubborn 1 () "/d").1 = some (Except.error FsErr.notEmpty) := by
  constructor
  · exact (removeAll_final_remove_tolerance fTolerant 0 false false false false false true
      "/d" (FInfo.mk "d" true) () [] [] FsErr.notEmpty rfl rfl rfl rfl rfl rfl rfl).1
      true rfl
  · exact (removeAll_final_remove_tolerance fStubborn 0 () () () () () () "/d"
      (FInfo.mk "d" true) () [] [] FsErr.notEmpty rfl rfl rfl rfl rfl rfl rfl).2
      (Except.ok (FInfo.mk "d" true)) () rfl (by decide)

/-! ## Handle discipline -/

theorem openedHandles_append {η : Type} (a b : List (Ev η)) :
    openedHandles (a ++ b) = openedHandles a ++ openedHandles b := by
  induction a with
  | nil => rfl
  | cons x r ih => cases x <;> simp [openedHandles, ih]

theorem closedHandles_append {η : Type} (a b : List (Ev η)) :
    closedHandles (a ++ b) = closedHandles a ++ closedHandles b := by
  induction a with
  | nil => rfl
  | cons x r ih => cases x <;> simp [closedHandles, ih]

theorem handles_balanced_children {σ η : Type} (rec : σ → String → RRes σ η)
    (parent : String)
    (hrec : ∀ s p, openedHandles ((rec s p).2.2) = closedHandles ((rec s p).2.2)) :
    ∀ (l : List FInfo) (s : σ),
      openedHandles ((removeChildrenAux rec parent s l).2.2) =
        closedHandles ((removeChildrenAux rec parent s l).2.2) := by
  intro l
  induction l with
  | nil => intro s; rfl
  | cons info rest ih =>
    intro s
    by_cases hsyn : info.name = "." ∨ info.name = ".."
    · rw [removeChildrenAux_skip rec parent s info rest hsyn]; exact ih s
    · simp only [removeChildrenAux, if_neg hsyn]
      rcases hrc : rec s (pathJoin parent info.name) with ⟨r1, sa, tra⟩
      have htra : openedHandles tra = closedHandles tra := by
        have h0 := hrec s (pathJoin parent info.name); rw [hrc] at h0; exact h0
      rcases r1 with _ | (e | u) <;> dsimp only []
      · exact htra
      · exact htra
      · rcases hl : removeChildrenAux rec parent sa rest with ⟨r2, s2, tr2⟩
        have h2 := ih sa; rw [hl] at h2
        simp [openedHandles_append, closedHandles_append, htra, h2]

theorem handles_balanced_step {σ η : Type} (F : Filer σ η) (rec : σ → String → RRes σ η)
    (hrec : ∀ s p, openedHandles ((rec s p).2.2) = closedHandles ((rec s p).2.2))
    (s : σ) (p : String) :
    openedHandles ((removeAllStep F rec s p).2.2) =
      closedHandles ((removeAllStep F rec s p).2.2) := by
  unfold removeAllStep
  rcases hn : F.native with _ | ra
  · dsimp only []
    rcases hst : F.stat s p with ⟨rs, s1⟩
    rcases rs with es | info
    · by_cases he : es = FsErr.notFound <;> simp [he, openedHandles, closedHandles]
    · dsimp only []
      by_cases hdir : info.isDir = false
      · rw [if_pos hdir]
        rcases hrm : F.remove s1 p with ⟨rr, s2⟩
        rcases rr with er | ur <;> simp [openedHandles, closedHandles]
      · rw [if_neg hdir]
        rcases hop : F.openFile s1 p oRDONLY 0 with ⟨ro, s2⟩
        rcases ro with eo | hh
        · by_cases he : eo = FsErr.notFound <;> simp [he, openedHandles, closedHandles]
        · dsimp only []
          rcases hrd : F.readdir s2 hh 0 with ⟨rd, s3⟩
          rcases rd with ed | infos
          · simp [openedHandles, closedHandles]
          · dsimp only []
            rcases hch : removeChildrenAux rec p (F.close s3 hh) infos with ⟨rc, s5, tr⟩
            have h2 : openedHandles tr = closedHandles tr := by
              have hx := handles_balanced_children rec p hrec infos (F.close s3 hh)
              rw [hch] at hx; exact hx
            rcases rc with _ | (ec | uc)
            · simp [openedHandles_append, closedHandles_append, openedHandles,
                closedHandles, h2]
            · simp [openedHandles_append, closedHandles_append, openedHandles,
                closedHandles, h2]
            · dsimp only []
              rcases hrm : F.remove s5 p with ⟨rr, s6⟩
              rcases rr with er | ur
              · dsimp only []
                rcases hst2 : F.stat s6 p with ⟨rs2, s7⟩
                rcases rs2 with e2 | i2
                · by_cases he2 : e2 = FsErr.notFound <;>
                    simp [he2, openedHandles_append, closedHandles_append, openedHandles,
                      closedHandles, h2]
                · simp [openedHandles_append, closedHandles_append, openedHandles,
                    closedHandles, h2]
              · simp [openedHandles_append, closedHandles_append, openedHandles,
                  closedHandles, h2]
  · dsimp only []
    rcases hra : ra s p with ⟨rr, s1⟩
    rcases rr with er | ur
    · by_cases he : er = FsErr.notFound <;> simp [he, openedHandles, closedHandles]
    · simp [openedHandles, closedHandles]

/-- **C8.** Handle discipline of the manual walk: in every invocation, the
directory handles opened are exactly the handles closed, in order (first
conjunct, by induction over the whole recursion); in particular, when the
`Readdir` listing fails, the handle is closed before the listing error is
returned: the close event precedes the return and the error is returned
unchanged (second conjunct). -/
theorem removeAll_handles_closed {σ η : Type} (F : Filer σ η) :
    (∀ fuel s p, openedHandles ((removeAllGo F fuel s p).2.2) =
        closedHandles ((removeAllGo F fuel s p).2.2)) ∧
    (∀ fuel (s s1 s2 s3 : σ) p info (h : η) e, F.native = none →
      F.stat s p = (Except.ok info, s1) → info.isDir = true →
      F.openFile s1 p oRDONLY 0 = (Except.ok h, s2) →
      F.readdir s2 h 0 = (Except.error e, s3) →
      removeAllGo F (fuel + 1) s p =
        (some (Except.error e), F.close s3 h,
          [Ev.statOk p info, Ev.openOk p h, Ev.readdirErr h e, Ev.closeEv h])) := by
  constructor
  · intro fuel
    induction fuel with
    | zero => intro s p; rfl
    | succ n ih =>
      intro s p
      rw [removeAllGo]
      exact handles_balanced_step F (removeAllGo F n) ih s p
  · intro fuel s s1 s2 s3 p info h e hn hs hd ho hr
    simp only [removeAllGo, removeAllStep, hn, hs, hd, ho, hr]
    simp

/-- Witness for C8: with a backing filesystem whose `Readdir` fails, the
opened handle is closed before the listing error is returned. -/
theorem removeAll_handles_closed_witness :
    removeAllGo fListErr 1 () "/d" =
      (some (Except.error (FsErr.other 4)), (),
        [Ev.statOk "/d" (FInfo.mk "d" true), Ev.openOk "/d" (), Ev.readdirErr () (FsErr.other 4),
          Ev.closeEv ()]) := by
  exact (removeAll_handles_closed fListErr).2 0 () () () () "/d" (FInfo.mk "d" true) ()
    (FsErr.other 4) rfl rfl rfl rfl rfl

/-! ## Error transformations -/

theorem errsOf_append {η : Type} (a b : List (Ev η)) :
    errsOf (a ++ b) = errsOf a ++ errsOf b := by
  induction a with
  | nil => rfl
  | cons x r ih => cases x <;> simp [errsOf, ih]

theorem okTrace_append {η : Type} :
    ∀ (a : List (Ev η)) (f : Option String) (b : List (Ev η)),
      okTrace f a = true → okTrace none b = true → okTrace f (a ++ b) = true := by
  intro a
  induction a with
  | nil =>
    intro f b ha hb
    cases f with
    | none => simpa using hb
    | some p => simp [okTrace] at ha
  | cons x r ih =>
    intro f b ha hb
    cases f with
    | some p =>
      cases x <;> simp only [okTrace, List.cons_append, Bool.and_eq_true,
        decide_eq_true_eq] at ha ⊢ <;> try exact ha
      exact ⟨ha.1, ih none b ha.2 hb⟩
    | none =>
      cases x with
      | statOk q i => exact ih none b ha hb
      | statErr q e =>
        simp only [okTrace, List.cons_append, Bool.and_eq_true, decide_eq_true_eq] at ha ⊢
        exact ⟨ha.1, ih none b ha.2 hb⟩
      | removeOk q => exact ih none b ha hb
      | removeErr q e =>
        simp only [okTrace, List.cons_append] at ha ⊢
        exact ih (some q) b ha hb
      | openOk q h => exact ih none b ha hb
      | openErr q e =>
        simp only [okTrace, List.cons_append, Bool.and_eq_true, decide_eq_true_eq] at ha ⊢
        exact ⟨ha.1, ih none b ha.2 hb⟩
      | readdirOk h l => exact ih none b ha hb
      | readdirErr h e => simp [okTrace] at ha
      | closeEv h => exact ih none b ha hb
      | nativeOk q => exact ih none b ha hb
      | nativeErr q e =>
        simp only [okTrace, List.cons_append, Bool.and_eq_true, decide_eq_true_eq] at ha ⊢
        exact ⟨ha.1, ih none b ha.2 hb⟩

theorem errProp_children {σ η : Type} (rec : σ → String → RRes σ η) (parent : String)
    (hrec : ∀ s p, errProp (rec s p)) :
    ∀ (l : List FInfo) (s : σ), errProp (removeChildrenAux rec parent s l) := by
  intro l
  induction l with
  | nil =>
    intro s
    constructor
    · intro e he; simp [removeChildrenAux] at he
    · intro _; rfl
  | cons info rest ih =>
    intro s
    by_cases hsyn : info.name = "." ∨ info.name = ".."
    · rw [removeChildrenAux_skip rec parent s info rest hsyn]; exact ih s
    · simp only [removeChildrenAux, if_neg hsyn]
      rcases hrc : rec s (pathJoin parent info.name) with ⟨r1, sa, tra⟩
      have hx := hrec s (pathJoin parent info.name); rw [hrc] at hx
      rcases r1 with _ | (e0 | u) <;> dsimp only []
      · exact ⟨fun e he => by simp at he, fun he => by simp at he⟩
      · constructor
        · intro e he
          have : e = e0 := by simpa using he.symm
          subst this
          exact hx.1 e rfl
        · intro he; simp at he
      · rcases hl : removeChildrenAux rec parent sa rest with ⟨r2, s2, tr2⟩
        have h2 := ih sa; rw [hl] at h2
        dsimp only []
        constructor
        · intro e he
          rw [errsOf_append, List.mem_append]
          exact Or.inr (h2.1 e he)
        · intro he
          exact okTrace_append tra none tr2 (hx.2 rfl) (h2.2 he)

theorem errProp_step {σ η : Type} (F : Filer σ η) (rec : σ → String → RRes σ η)
    (hrec : ∀ s p, errProp (rec s p)) (s : σ) (p : String) :
    errProp (removeAllStep F rec s p) := by
  unfold removeAllStep
  rcases hn : F.native with _ | ra
  · dsimp only []
    rcases hst : F.stat s p with ⟨rs, s1⟩
    rcases rs with es | info
    · by_cases he : es = FsErr.notFound <;>
        refine ⟨fun e hx => ?_, fun hx => ?_⟩ <;> simp [he, okTrace, errsOf] at hx ⊢ <;>
        simp [hx, he]
    · dsimp only []
      by_cases hdir : info.isDir = false
      · rw [if_pos hdir]
        rcases hrm : F.remove s1 p with ⟨rr, s2⟩
        rcases rr with er | ur <;> refine ⟨fun e hx => ?_, fun hx => ?_⟩ <;>
          simp [okTrace, errsOf] at hx ⊢ <;> simp [hx]
      · rw [if_neg hdir]
        rcases hop : F.openFile s1 p oRDONLY 0 with ⟨ro, s2⟩
        rcases ro with eo | hh
        · by_cases he : eo = FsErr.notFound <;>
            refine ⟨fun e hx => ?_, fun hx => ?_⟩ <;> simp [he, okTrace, errsOf] at hx ⊢ <;>
            simp [hx, he]
        · dsimp only []
          rcases hrd : F.readdir s2 hh 0 with ⟨rd, s3⟩
          rcases rd with ed | infos
          · refine ⟨fun e hx => ?_, fun hx => ?_⟩ <;> simp [okTrace, errsOf] at hx ⊢ <;>
              simp [hx]
          · dsimp only []
            rcases hch : removeChildrenAux rec p (F.close s3 hh) infos with ⟨rc, s5, tr⟩
            have h2 : errProp ((rc, s5, tr) : RRes σ η) := by
              have hx := errProp_children rec p hrec infos (F.close s3 hh)
              rw [hch] at hx; exact hx
            have hhdr : okTrace (none : Option String)
                [Ev.statOk p info, Ev.openOk p hh, Ev.readdirOk hh infos,
                  Ev.closeEv (η := η) hh] = true := by
              simp [okTrace]
            rcases rc with _ | (ec | uc)
            · exact ⟨fun e he => by simp at he, fun he => by simp at he⟩
            · constructor
              · intro e he
                have : e = ec := by simpa using he.symm
                subst this
                rw [errsOf_append, List.mem_append]
                exact Or.inr (h2.1 e rfl)
              · intro he; simp at he
            · dsimp only []
              rcases hrm : F.remove s5 p with ⟨rr, s6⟩
              rcases rr with er | ur
              · dsimp only []
                rcases hst2 : F.stat s6 p with ⟨rs2, s7⟩
                rcases rs2 with e2 | i2
                · dsimp only []
                  by_cases he2 : e2 = FsErr.notFound
                  · rw [if_pos he2]
                    constructor
                    · intro e he; simp at he
                    · intro _
                      subst he2
                      rw [List.append_assoc]
                      refine okTrace_append _ none _ hhdr ?_
                      refine okTrace_append _ none _ (h2.2 rfl) ?_
                      simp [okTrace]
                  · rw [if_neg he2]
                    constructor
                    · intro e he
                      have : e = er := by simpa using he.symm
                      subst this
                      simp [errsOf_append, errsOf]
                    · intro he; simp at he
                · dsimp only []
                  constructor
                  · intro e he
                    have : e = er := by simpa using he.symm
                    subst this
                    simp [errsOf_append, errsOf]
                  · intro he; simp at he
              · dsimp only []
                constructor
                · intro e he; simp at he
                · intro _
                  rw [List.append_assoc]
                  refine okTrace_append _ none _ hhdr ?_
                  refine okTrace_append _ none _ (h2.2 rfl) ?_
                  simp [okTrace]
  · dsimp only []
    rcases hra : ra s p with ⟨rr, s1⟩
    rcases rr with er | ur
    · by_cases he : er = FsErr.notFound <;>
        refine ⟨fun e hx => ?_, fun hx => ?_⟩ <;> simp [he, okTrace, errsOf] at hx ⊢ <;>
        simp [hx, he]
    · refine ⟨fun e hx => by simp at hx, fun hx => by simp [okTrace]⟩

/-- **C7.** The only error transformation `RemoveAll` ever applies is
NotFound-to-success.  First conjunct: any error `RemoveAll` returns appears
verbatim among the errors the backing filesystem produced in the trace
(unmodified in kind, never invented).  Second conjunct: when `RemoveAll`
returns success, every failed backing call in the trace is either a NotFound
answer to `Stat`/`OpenFile`/native delegation — the conversion at the top of
the recursion on the subtree in question — or a failed final `Remove`
immediately followed by the tolerance re-`Stat` reporting NotFound on the
same path; nothing else is ever swallowed. -/
theorem removeAll_error_transformations {σ η : Type} (F : Filer σ η)
    (fuel : Nat) (s : σ) (p : String) :
    (∀ e, (removeAllGo F fuel s p).1 = some (Except.error e) →
      e ∈ errsOf (removeAllGo F fuel s p).2.2) ∧
    ((removeAllGo F fuel s p).1 = some (Except.ok ()) →
      okTrace none (removeAllGo F fuel s p).2.2 = true) := by
  have main : ∀ fuel s p, errProp (removeAllGo F fuel s p) := by
    intro fuel
    induction fuel with
    | zero =>
      intro s p
      exact ⟨fun e he => by simp [removeAllGo] at he, fun he => by simp [removeAllGo] at he⟩
    | succ n ih =>
      intro s p
      rw [removeAllGo]
      exact errProp_step F (removeAllGo F n) ih s p
  exact main fuel s p

/-- Witness for C7: an opaque `Stat` error appears verbatim in the trace of
a failing run, and the trace of a successful tolerance-masked run swallows
only the allowed patterns. -/
theorem removeAll_error_transformations_witness :
    FsErr.other 3 ∈ errsOf (removeAllGo fStatErr 1 () "/x").2.2 ∧
    okTrace none (removeAllGo fTolerant 1 false "/d").2.2 = true := by
  constructor
  · exact (removeAll_error_transformations fStatErr 1 () "/x").1 (FsErr.other 3) rfl
  · exact (removeAll_error_transformations fTolerant 1 false "/d").2 rfl

/-! ## Completeness over the concrete filesystem -/

theorem memFiler_native : memFiler.native = none := rfl

theorem memFiler_stat (s : List (String × Bool)) (p : String) :
    memFiler.stat s p = (statM s p, s) := rfl

theorem memFiler_remove (s : List (String × Bool)) (p : String) :
    memFiler.remove s p = removeM s p := rfl

theorem memFiler_openFile (s : List (String × Bool)) (p : String) (a b : Nat) :
    memFiler.openFile s p a b = (openM s p, s) := rfl

theorem memFiler_readdir (s : List (String × Bool)) (h : String) (c : Nat) :
    memFiler.readdir s h c = (readdirM s h, s) := rfl

theorem memFiler_close (s : List (String × Bool)) (h : String) :
    memFiler.close s h = s := rfl

theorem lookupFs_filter_self (t : List (String × Bool)) (p : String) :
    lookupFs (t.filter (fun kv => !(kv.1 == p))) p = none := by
  induction t with
  | nil => rfl
  | cons kv rest ih =>
    by_cases h : kv.1 = p
    · simp [List.filter_cons, h, ih]
    · simp only [List.filter_cons]
      rw [if_pos (by simp [h])]
      simp [lookupFs, h, ih]

/-- **C1.** Completeness over the well-behaved concrete backing filesystem:
whenever `RemoveAll p` genuinely returns success (fuel not exhausted), a
subsequent `Stat p` on the resulting state reports NotFound. -/
theorem removeAll_completeness (fuel : Nat) (t t' : List (String × Bool)) (p : String)
    (tr : List (Ev String))
    (h : removeAllGo memFiler fuel t p = (some (Except.ok ()), t', tr)) :
    (memFiler.stat t' p).1 = Except.error FsErr.notFound := by
  cases fuel with
  | zero => simp [removeAllGo] at h
  | succ n =>
    rw [removeAllGo] at h
    unfold removeAllStep at h
    simp only [memFiler_native, memFiler_stat, memFiler_remove, memFiler_openFile,
      memFiler_readdir, memFiler_close] at h
    rcases hlk : lookupFs t p with _ | d
    · simp only [statM, hlk] at h
      simp at h
      obtain ⟨hset, -⟩ := h
      simp [memFiler_stat, statM, ← hset, hlk]
    · simp only [statM, hlk] at h
      cases d with
      | false =>
        simp only [removeM, hlk] at h
        cases hhc : hasChild t p with
        | true => simp [hhc] at h
        | false =>
          simp [hhc] at h
          obtain ⟨hset, -⟩ := h
          simp [memFiler_stat, statM, ← hset, lookupFs_filter_self]
      | true =>
        simp only [openM, readdirM, hlk] at h
        rw [if_neg (by simp)] at h
        rcases hch : removeChildrenAux (removeAllGo memFiler n) p t
            (FInfo.mk "." true :: FInfo.mk ".." true :: childrenOf t p) with ⟨rc, s5, trc⟩
        rw [hch] at h
        rcases rc with _ | (ec | uc)
        · simp at h
        · simp at h
        · dsimp only [] at h
          rcases hlk5 : lookupFs s5 p with _ | d5
          · simp only [removeM, statM, hlk5] at h
            simp at h
            obtain ⟨hset, -⟩ := h
            simp [memFiler_stat, statM, ← hset, hlk5]
          · cases hhc : hasChild s5 p with
            | true => simp [removeM, hlk5, hhc, statM] at h
            | false =>
              simp [removeM, hlk5, hhc] at h
              obtain ⟨hset, -⟩ := h
              simp [memFiler_stat, statM, ← hset, lookupFs_filter_self]

/-- Witness for C1: removing the file `/f` succeeds and the subsequent
`Stat` reports NotFound. -/
theorem removeAll_completeness_witness :
    (memFiler.stat ((removeAllGo memFiler 2 [("/f", false)] "/f").2.1) "/f").1 =
      Except.error FsErr.notFound := by
  exact removeAll_completeness 2 [("/f", false)]
    (removeAllGo memFiler 2 [("/f", false)] "/f").2.1 "/f"
    (removeAllGo memFiler 2 [("/f", false)] "/f").2.2 (by rfl)

/-! ## MkdirAll -/

theorem mkdirAllLoop_all_ok {σ : Type} (mk : σ → String → Nat → Except FsErr Unit × σ)
    (perm : Nat)
    (hmk : ∀ (s' : σ) q, (mk s' q perm).1 = Except.ok () ∨
      (mk s' q perm).1 = Except.error FsErr.alreadyExists) :
    ∀ (segs : List String) (s : σ) (p : String),
      (mkdirAllLoop mk perm s p segs).1 = Except.ok () ∧
      (mkdirAllLoop mk perm s p segs).2.2 = joinTargetsFrom p segs := by
  intro segs
  induction segs with
  | nil => intro s p; exact ⟨rfl, rfl⟩
  | cons seg rest ih =>
    intro s p
    by_cases hseg : seg = ""
    · simp only [mkdirAllLoop, joinTargetsFrom, if_pos hseg]
      exact ih s p
    · simp only [mkdirAllLoop, joinTargetsFrom, if_neg hseg]
      rcases hmk0 : mk s (pathJoin p seg) perm with ⟨r, s1⟩
      have hx := hmk s (pathJoin p seg); rw [hmk0] at hx
      rcases r with e | u
      · have he : e = FsErr.alreadyExists := by
          rcases hx with h1 | h1
          · simp at h1
          · simpa using h1
        dsimp only []
        rw [if_pos he]
        simp [(ih s1 (pathJoin p seg)).1, (ih s1 (pathJoin p seg)).2]
      · dsimp only []
        simp [(ih s1 (pathJoin p seg)).1, (ih s1 (pathJoin p seg)).2]

theorem mkdirAllLoop_failfast {σ : Type} (f : String → Except FsErr Unit) (perm : Nat)
    (e : FsErr) (he : ¬ (e = FsErr.alreadyExists)) :
    ∀ (segs : List String) (s : σ) (p : String) (A : List String) (b : String)
      (B : List String),
      joinTargetsFrom p segs = A ++ b :: B →
      (∀ a ∈ A, f a = Except.ok () ∨ f a = Except.error FsErr.alreadyExists) →
      f b = Except.error e →
      mkdirAllLoop (fun s' q _ => (f q, s')) perm s p segs = (Except.error e, s, A ++ [b]) := by
  intro segs
  induction segs with
  | nil =>
    intro s p A b B hsplit hA hb
    simp [joinTargetsFrom] at hsplit
  | cons seg rest ih =>
    intro s p A b B hsplit hA hb
    by_cases hseg : seg = ""
    · simp only [joinTargetsFrom, if_pos hseg] at hsplit
      simp only [mkdirAllLoop, if_pos hseg]
      exact ih s p A b B hsplit hA hb
    · simp only [joinTargetsFrom, if_neg hseg] at hsplit
      simp only [mkdirAllLoop, if_neg hseg]
      cases A with
      | nil =>
        simp only [List.nil_append, List.cons.injEq] at hsplit
        obtain ⟨hb1, -⟩ := hsplit
        rw [hb1, hb]
        dsimp only []
        rw [if_neg he]
        simp
      | cons a A2 =>
        simp only [List.cons_append, List.cons.injEq] at hsplit
        obtain ⟨ha1, hsplit2⟩ := hsplit
        have hfa := hA a (by simp)
        rw [← ha1] at hfa
        have hrest := ih s (pathJoin p seg) A2 b B hsplit2
          (fun x hx => hA x (by simp [hx])) hb
        rcases hfa with h1 | h1
        · rw [h1]
          dsimp only []
          rw [hrest]
          simp [ha1]
        · rw [h1]
          dsimp only []
          rw [if_pos rfl, hrest]
          simp [ha1]

/-- Counterexample to C10 as stated: for `name = "a"` the only non-empty
slash-separated prefix of the name is `"a"` itself, but the code roots its
walk at `"/"`, calls `Mkdir` only on `"/a"`, and never calls it on `"a"`. -/
theorem mkdirAll_spec_prefixes_counterexample :
    (mkdirAllGo mkAlwaysOk () "a" 0).2.2 = ["/a"] ∧
    specSlashPrefixes "a" = ["a"] ∧
    ¬ ("a" ∈ (mkdirAllGo mkAlwaysOk () "a" 0).2.2) := by
  refine ⟨by decide, by decide, by decide⟩

/-- **C10 (amended).** `MkdirAll name perm` calls `Mkdir` once, in order from
shallowest to deepest, on each cumulative `path.Join` target obtained by
joining the non-empty slash-separated segments of `name` onto the root `"/"`
(for an absolute, already-clean `name` these are exactly its non-empty
slash-separated prefixes).  It returns nil when every such `Mkdir` succeeds
or fails with already-exists (first conjunct), and it returns the first
`Mkdir` error of any other kind immediately, without calling `Mkdir` on any
deeper target (second conjunct). -/
theorem mkdirAll_join_targets {σ : Type} (mk : σ → String → Nat → Except FsErr Unit × σ)
    (s : σ) (name : String) (perm : Nat) :
    ((∀ (s' : σ) q, (mk s' q perm).1 = Except.ok () ∨
        (mk s' q perm).1 = Except.error FsErr.alreadyExists) →
      (mkdirAllGo mk s name perm).1 = Except.ok () ∧
      (mkdirAllGo mk s name perm).2.2 = mkdirTargets name) ∧
    (∀ (f : String → Except FsErr Unit) (A B : List String) (b : String) (e : FsErr),
      mkdirTargets name = A ++ b :: B →
      (∀ a ∈ A, f a = Except.ok () ∨ f a = Except.error FsErr.alreadyExists) →
      f b = Except.error e → ¬ (e = FsErr.alreadyExists) →
      mkdirAllGo (fun s' q _ => (f q, s')) s name perm = (Except.error e, s, A ++ [b])) := by
  constructor
  · intro hmk
    exact mkdirAllLoop_all_ok mk perm hmk (goSplit name) s "/"
  · intro f A B b e hsplit hA hb he
    exact mkdirAllLoop_failfast f perm e he (goSplit name) s "/" A b B hsplit hA hb

/-- Witness for the amended C10: with an always-succeeding `Mkdir` the calls
are the cumulative join targets, and with `Mkdir` failing at `/a/b` the walk
stops there, returning that error. -/
theorem mkdirAll_join_targets_witness :
    ((mkdirAllGo mkAlwaysOk () "/a/b/c" 0).1 = Except.ok () ∧
      (mkdirAllGo mkAlwaysOk () "/a/b/c" 0).2.2 = mkdirTargets "/a/b/c") ∧
    mkdirAllGo (fun s' q _ => (mkFailAtAB q, s')) () "/a/b/c" 0 =
      (Except.error (FsErr.other 5), (), ["/a", "/a/b"]) := by
  constructor
  · exact (mkdirAll_join_targets mkAlwaysOk () "/a/b/c" 0).1
      (fun s' q => Or.inl rfl)
  · have h := (mkdirAll_join_targets (fun (s' : Unit) q (_ : Nat) => (mkFailAtAB q, s'))
      () "/a/b/c" 0).2 mkFailAtAB ["/a"] ["/a/b/c"] "/a/b" (FsErr.other 5)
      (by decide) (by decide) (by decide) (by decide)
    simpa using h

/-! ## Path algebra for well-formed keys -/

theorem splitChar_ne_nil (sep : Char) (l : List Char) : splitChar sep l ≠ [] := by
  cases l with
  | nil => simp [splitChar]
  | cons c rest =>
    simp only [splitChar]
    rcases h : splitChar sep rest with _ | ⟨s, ss⟩
    · simp
    · by_cases hc : c = sep <;> simp [hc]

theorem splitChar_noSep (sep : Char) (l : List Char) (h : sep ∉ l) :
    splitChar sep l = [l] := by
  induction l with
  | nil => rfl
  | cons c rest ih =>
    have hc : ¬ (c = sep) := fun hh => h (by simp [hh])
    have hr : sep ∉ rest := fun hh => h (by simp [hh])
    simp only [splitChar, ih hr]
    simp [hc]

theorem splitChar_append (sep : Char) (s t : List Char) (h : sep ∉ s) :
    splitChar sep (s ++ sep :: t) = s :: splitChar sep t := by
  induction s with
  | nil =>
    simp only [List.nil_append, splitChar]
    rcases ht : splitChar sep t with _ | ⟨x, xs⟩
    · exact absurd ht (splitChar_ne_nil sep t)
    · simp
  | cons c rest ih =>
    have hc : ¬ (c = sep) := fun hh => h (by simp [hh])
    have hr : sep ∉ rest := fun hh => h (by simp [hh])
    simp only [List.cons_append, splitChar, List.append_eq]
    rw [ih hr]
    simp [hc]

theorem joinSegs_cons (s : List Char) (ss : List (List Char)) (h : ss ≠ []) :
    joinSegs (s :: ss) = s ++ '/' :: joinSegs ss := by
  cases ss with
  | nil => exact absurd rfl h
  | cons x xs => rfl

theorem joinSegs_append_single (a : List (List Char)) (b : List Char) (h : a ≠ []) :
    joinSegs (a ++ [b]) = joinSegs a ++ '/' :: b := by
  induction a with
  | nil => exact absurd rfl h
  | cons x xs ih =>
    cases xs with
    | nil => simp [joinSegs]
    | cons y ys =>
      rw [List.cons_append, joinSegs_cons x (y :: ys ++ [b]) (by simp),
        joinSegs_cons x (y :: ys) (by simp), ih (by simp)]
      simp

theorem splitChar_joinSegs (segs : List (List Char)) (hne : segs ≠ [])
    (h : ∀ sg ∈ segs, '/' ∉ sg) : splitChar '/' (joinSegs segs) = segs := by
  induction segs with
  | nil => exact absurd rfl hne
  | cons s ss ih =>
    cases ss with
    | nil => exact splitChar_noSep '/' s (h s (by simp))
    | cons y ys =>
      rw [joinSegs_cons s (y :: ys) (by simp),
        splitChar_append '/' s (joinSegs (y :: ys)) (h s (by simp)),
        ih (by simp) (fun sg hsg => h sg (by simp [hsg]))]

theorem joinSegs_splitChar (l : List Char) : joinSegs (splitChar '/' l) = l := by
  induction l with
  | nil => rfl
  | cons c rest ih =>
    simp only [splitChar]
    rcases h : splitChar '/' rest with _ | ⟨x, xs⟩
    · exact absurd h (splitChar_ne_nil '/' rest)
    · rw [h] at ih
      by_cases hc : c = '/'
      · simp only [if_pos hc]
        rw [joinSegs_cons [] (x :: xs) (by simp)]
        simp [hc, ih]
      · simp only [if_neg hc]
        cases xs with
        | nil => simpa [joinSegs] using congrArg (c :: ·) ih
        | cons z zs =>
          rw [joinSegs_cons (c :: x) (z :: zs) (by simp)]
          rw [joinSegs_cons x (z :: zs) (by simp)] at ih
          simpa using congrArg (c :: ·) ih

theorem joinSegs_ne_nil (segs : List (List Char)) (hne : segs ≠ [])
    (h : ∀ sg ∈ segs, sg ≠ []) : joinSegs segs ≠ [] := by
  cases segs with
  | nil => exact absurd rfl hne
  | cons s ss =>
    cases ss with
    | nil => exact h s (by simp)
    | cons y ys =>
      rw [joinSegs_cons s (y :: ys) (by simp)]
      rcases hs : s with _ | ⟨c, cs⟩
      · simp
      · simp

theorem joinSegs_single (segs : List (List Char)) (l : List Char)
    (hv : ∀ sg ∈ segs, sg ≠ []) (h : joinSegs segs = l) (hl : l ≠ [])
    (hns : '/' ∉ l) : segs = [l] := by
  cases segs with
  | nil => subst h; exact absurd rfl hl
  | cons s ss =>
    cases ss with
    | nil => simp [joinSegs] at h; rw [h]
    | cons y ys =>
      rw [joinSegs_cons s (y :: ys) (by simp)] at h
      exact absurd (h ▸ (by simp : '/' ∈ s ++ '/' :: joinSegs (y :: ys))) hns

theorem joinSegs_inj (a b : List (List Char))
    (ha : ∀ sg ∈ a, sg ≠ [] ∧ '/' ∉ sg) (hb : ∀ sg ∈ b, sg ≠ [] ∧ '/' ∉ sg)
    (h : joinSegs a = joinSegs b) : a = b := by
  cases a with
  | nil =>
    cases b with
    | nil => rfl
    | cons y ys =>
      exact absurd h.symm
        (joinSegs_ne_nil (y :: ys) (by simp) (fun sg hsg => (hb sg hsg).1))
  | cons x xs =>
    cases b with
    | nil =>
      exact absurd h (joinSegs_ne_nil (x :: xs) (by simp) (fun sg hsg => (ha sg hsg).1))
    | cons y ys =>
      have h1 := splitChar_joinSegs (x :: xs) (by simp) (fun sg hsg => (ha sg hsg).2)
      have h2 := splitChar_joinSegs (y :: ys) (by simp) (fun sg hsg => (hb sg hsg).2)
      rw [← h1, ← h2, h]

theorem splitChar_cons_sep (sep : Char) (t : List Char) :
    splitChar sep (sep :: t) = [] :: splitChar sep t := by
  simp only [splitChar]
  rcases h : splitChar sep t with _ | ⟨s, ss⟩
  · exact absurd h (splitChar_ne_nil sep t)
  · simp

theorem cleanLoop_valid (rooted : Bool) :
    ∀ (segs out : List (List Char)),
      (∀ sg ∈ segs, validSeg sg) → cleanLoop rooted out segs = out.reverse ++ segs := by
  intro segs
  induction segs with
  | nil => intro out h; simp [cleanLoop]
  | cons s ss ih =>
    intro out h
    obtain ⟨h1, h2, h3, h4⟩ := h s (by simp)
    simp only [cleanLoop]
    rw [if_neg (not_or.mpr ⟨h1, h3⟩), if_neg h4]
    rw [ih (s :: out) (fun sg hsg => h sg (by simp [hsg]))]
    simp

theorem cleanLoop_skip_empty (rooted : Bool) (out rest : List (List Char)) :
    cleanLoop rooted out ([] :: rest) = cleanLoop rooted out rest := by
  simp [cleanLoop]

theorem cleanPath_abs (segs : List (List Char)) (hne : segs ≠ [])
    (h : ∀ sg ∈ segs, validSeg sg) :
    cleanPath ('/' :: joinSegs segs) = '/' :: joinSegs segs := by
  simp only [cleanPath]
  rw [splitChar_cons_sep '/' (joinSegs segs),
    splitChar_joinSegs segs hne (fun sg hsg => (h sg hsg).2.1)]
  rw [if_pos trivial]
  rw [cleanLoop_skip_empty, cleanLoop_valid _ segs [] h]
  simp

theorem pathJoin2_abs (segs : List (List Char)) (n : List Char)
    (hsegs : ∀ sg ∈ segs, validSeg sg) (hn : validSeg n) :
    pathJoin2 ('/' :: joinSegs segs) n = '/' :: joinSegs (segs ++ [n]) := by
  unfold pathJoin2
  rw [if_neg (by simp)]
  cases segs with
  | nil =>
    show cleanPath ('/' :: '/' :: n) = '/' :: joinSegs [n]
    simp only [cleanPath]
    rw [splitChar_cons_sep, splitChar_cons_sep, splitChar_noSep '/' n hn.2.1]
    rw [if_pos trivial]
    rw [cleanLoop_skip_empty, cleanLoop_skip_empty,
      cleanLoop_valid _ [n] [] (by simpa using hn)]
    simp [joinSegs]
  | cons x xs =>
    have hx : ('/' :: joinSegs (x :: xs)) ++ '/' :: n = '/' :: joinSegs ((x :: xs) ++ [n]) := by
      rw [joinSegs_append_single (x :: xs) n (by simp)]
      simp
    rw [hx]
    exact cleanPath_abs ((x :: xs) ++ [n]) (by simp)
      (by intro sg hsg
          rcases List.mem_append.mp hsg with h1 | h1
          · exact hsegs sg h1
          · simpa using (List.mem_singleton.mp h1) ▸ hn)

theorem pathJoin_abs (p n : String) (psegs : List (List Char))
    (hp : p.data = '/' :: joinSegs psegs) (hsegs : ∀ sg ∈ psegs, validSeg sg)
    (hn : validSeg n.data) :
    (pathJoin p n).data = '/' :: joinSegs (psegs ++ [n.data]) := by
  show pathJoin2 p.data n.data = _
  rw [hp]
  exact pathJoin2_abs psegs n.data hsegs hn

theorem pathJoin_abs_len (p n : String) (psegs : List (List Char))
    (hp : p.data = '/' :: joinSegs psegs) (hsegs : ∀ sg ∈ psegs, validSeg sg)
    (hn : validSeg n.data) :
    p.data.length + 1 ≤ (pathJoin p n).data.length := by
  rw [pathJoin_abs p n psegs hp hsegs hn, hp]
  cases psegs with
  | nil =>
    have : n.data.length ≥ 1 := by
      rcases hd : n.data with _ | ⟨c, cs⟩
      · exact absurd hd hn.1
      · simp
    simp [joinSegs]
    exact this
  | cons x xs =>
    rw [joinSegs_append_single (x :: xs) n.data (by simp)]
    simp

/-! ## Children of well-formed keys -/

theorem stripPre_eq : ∀ (a b r : List Char), stripPre a b = some r → b = a ++ r := by
  intro a
  induction a with
  | nil =>
    intro b r h
    simp only [stripPre, Option.some.injEq] at h
    simp [h]
  | cons x xs ih =>
    intro b r h
    cases b with
    | nil => simp [stripPre] at h
    | cons y ys =>
      simp only [stripPre] at h
      by_cases hxy : x = y
      · rw [if_pos hxy] at h
        rw [hxy]
        simpa using ih ys r h
      · rw [if_neg hxy] at h; simp at h

theorem childNameOf_some (d q nm : String) (h : childNameOf d q = some nm) :
    q.data = dirPref d ++ nm.data ∧ nm.data ≠ [] ∧ '/' ∉ nm.data := by
  unfold childNameOf at h
  rcases hs : stripPre (dirPref d) q.data with _ | rest
  · rw [hs] at h; simp at h
  · rw [hs] at h
    dsimp only [] at h
    by_cases hc : rest ≠ [] ∧ ¬ ('/' ∈ rest)
    · rw [if_pos hc] at h
      have hnm : nm = String.mk rest := by simpa using h.symm
      subst hnm
      exact ⟨stripPre_eq _ _ _ hs, hc.1, hc.2⟩
    · rw [if_neg hc] at h; simp at h

theorem child_key_len (p q nm : String) (h : q.data = dirPref p ++ nm.data)
    (hne : nm.data ≠ []) : p.data.length + 1 ≤ q.data.length := by
  have hlen : 1 ≤ nm.data.length := by
    rcases hd : nm.data with _ | ⟨c, cs⟩
    · exact absurd hd hne
    · simp
  unfold dirPref at h
  by_cases hroot : p.data = ['/']
  · rw [if_pos hroot] at h
    rw [h, hroot]
    simpa using hlen
  · rw [if_neg hroot] at h
    rw [h]
    simp

theorem child_validSeg (p q nm : String) (psegs : List (List Char))
    (hp : p.data = '/' :: joinSegs psegs) (hps : ∀ sg ∈ psegs, validSeg sg)
    (hq : WFkey q) (hcn : childNameOf p q = some nm) :
    validSeg nm.data := by
  obtain ⟨hqd, hne, hns⟩ := childNameOf_some p q nm hcn
  obtain ⟨qsegs, hqv, hqdata⟩ := hq
  unfold dirPref at hqd
  by_cases hroot : p.data = ['/']
  · rw [if_pos hroot] at hqd
    have hj : joinSegs qsegs = nm.data := by
      have : ('/' : Char) :: joinSegs qsegs = '/' :: nm.data := by
        rw [← hqdata, hqd]; rfl
      simpa using this
    have hsingle := joinSegs_single qsegs nm.data (fun sg hsg => (hqv sg hsg).1) hj hne hns
    have : nm.data ∈ qsegs := by rw [hsingle]; simp
    exact hqv nm.data this
  · rw [if_neg hroot] at hqd
    have hpne : psegs ≠ [] := by
      intro hnil
      rw [hnil] at hp
      exact hroot (by simpa [joinSegs] using hp)
    have hj : joinSegs qsegs = joinSegs (psegs ++ [nm.data]) := by
      have h1 : ('/' : Char) :: joinSegs qsegs = '/' :: joinSegs (psegs ++ [nm.data]) := by
        rw [← hqdata, hqd, hp, joinSegs_append_single psegs nm.data hpne]
        simp
      simpa using h1
    have heq := joinSegs_inj qsegs (psegs ++ [nm.data])
      (fun sg hsg => ⟨(hqv sg hsg).1, (hqv sg hsg).2.1⟩)
      (by
        intro sg hsg
        rcases List.mem_append.mp hsg with h1 | h1
        · exact ⟨(hps sg h1).1, (hps sg h1).2.1⟩
        · rw [List.mem_singleton.mp h1]; exact ⟨hne, hns⟩)
      hj
    have : nm.data ∈ qsegs := by rw [heq]; simp
    exact hqv nm.data this

theorem childrenOf_spec (t : List (String × Bool)) (d : String) (i : FInfo)
    (h : i ∈ childrenOf t d) :
    ∃ kv, kv ∈ t ∧ childNameOf d kv.1 = some i.name := by
  unfold childrenOf at h
  rw [List.mem_filterMap] at h
  obtain ⟨kv, hkv, hmap⟩ := h
  rcases hc : childNameOf d kv.1 with _ | nm
  · rw [hc] at hmap; simp at hmap
  · rw [hc] at hmap
    have hmk : FInfo.mk nm kv.2 = i := by simpa using hmap
    refine ⟨kv, hkv, ?_⟩
    rw [hc, ← hmk]

theorem lookupFs_some_mem (t : List (String × Bool)) (p : String) (d : Bool)
    (h : lookupFs t p = some d) : (p, d) ∈ t := by
  induction t with
  | nil => simp [lookupFs] at h
  | cons kv rest ih =>
    simp only [lookupFs] at h
    by_cases hk : kv.1 = p
    · rw [if_pos hk] at h
      simp only [Option.some.injEq] at h
      have hkv : kv = (p, d) := by
        cases kv
        simp_all
      rw [hkv]
      exact List.mem_cons_self _ _
    · rw [if_neg hk] at h
      exact List.mem_cons_of_mem kv (ih h)

theorem WFkey_of_B (p : String) (h : WFkeyB p = true) : WFkey p := by
  unfold WFkeyB at h
  rcases hd : p.data with _ | ⟨c, body⟩
  · rw [hd] at h; simp at h
  · rw [hd] at h
    simp only [Bool.and_eq_true, Bool.or_eq_true, decide_eq_true_eq, List.all_eq_true] at h
    obtain ⟨hc, hrest⟩ := h
    rcases hrest with hbody | hall
    · exact ⟨[], by simp, by rw [hd, hc, hbody]; rfl⟩
    · refine ⟨splitChar '/' body, ?_, ?_⟩
      · intro sg hsg
        simpa using hall sg hsg
      · rw [hd, hc, joinSegs_splitChar]

theorem WFfs_of_B (t : List (String × Bool)) (h : WFfsB t = true) : WFfs t := by
  intro kv hkv
  exact WFkey_of_B kv.1 ((List.all_eq_true.mp h) kv hkv)

/-! ## The concrete walk only shrinks the state -/

theorem removeM_sub (s : List (String × Bool)) (p : String) (kv : String × Bool)
    (h : kv ∈ (removeM s p).2) : kv ∈ s := by
  unfold removeM at h
  rcases hlk : lookupFs s p with _ | d
  · rw [hlk] at h; exact h
  · rw [hlk] at h
    dsimp only [] at h
    by_cases hhc : hasChild s p = true
    · rw [if_pos hhc] at h; exact h
    · rw [if_neg hhc] at h
      exact (List.mem_filter.mp h).1

theorem state_sub_children
    (rec : List (String × Bool) → String → RRes (List (String × Bool)) String)
    (parent : String)
    (hrec : ∀ s p kv, kv ∈ (rec s p).2.1 → kv ∈ s) :
    ∀ (l : List FInfo) (s : List (String × Bool)) (kv : String × Bool),
      kv ∈ (removeChildrenAux rec parent s l).2.1 → kv ∈ s := by
  intro l
  induction l with
  | nil => intro s kv h; exact h
  | cons info rest ih =>
    intro s kv h
    by_cases hsyn : info.name = "." ∨ info.name = ".."
    · rw [removeChildrenAux_skip rec parent s info rest hsyn] at h; exact ih s kv h
    · simp only [removeChildrenAux, if_neg hsyn] at h
      rcases hrc : rec s (pathJoin parent info.name) with ⟨r1, sa, tra⟩
      rw [hrc] at h
      have hsa : ∀ kv2, kv2 ∈ sa → kv2 ∈ s := fun kv2 hk =>
        hrec s (pathJoin parent info.name) kv2 (by rw [hrc]; exact hk)
      rcases r1 with _ | (e | u) <;> dsimp only [] at h
      · exact hsa kv h
      · exact hsa kv h
      · rcases hl : removeChildrenAux rec parent sa rest with ⟨r2, s2, tr2⟩
        rw [hl] at h
        dsimp only [] at h
        exact hsa kv (ih sa kv (by rw [hl]; exact h))

theorem state_sub_step (F : Filer (List (String × Bool)) String)
    (rec : List (String × Bool) → String → RRes (List (String × Bool)) String)
    (h0 : F.native = none)
    (h1 : ∀ s p, (F.stat s p).2 = s)
    (h2 : ∀ s p kv, kv ∈ (F.remove s p).2 → kv ∈ s)
    (h3 : ∀ s p a b, (F.openFile s p a b).2 = s)
    (h4 : ∀ s h c, (F.readdir s h c).2 = s)
    (h5 : ∀ s h, F.close s h = s)
    (hrec : ∀ s p kv, kv ∈ (rec s p).2.1 → kv ∈ s)
    (s : List (String × Bool)) (p : String) (kv : String × Bool)
    (h : kv ∈ (removeAllStep F rec s p).2.1) : kv ∈ s := by
  unfold removeAllStep at h
  rw [h0] at h
  dsimp only [] at h
  rcases hst : F.stat s p with ⟨rs, s1⟩
  have hs1 : s1 = s := by rw [← h1 s p, hst]
  rw [hst] at h
  rw [hs1] at h
  rcases rs with es | info <;> dsimp only [] at h
  · by_cases he : es = FsErr.notFound
    · rw [if_pos he] at h; exact h
    · rw [if_neg he] at h; exact h
  · by_cases hdir : info.isDir = false
    · rw [if_pos hdir] at h
      rcases hrm : F.remove s p with ⟨rr, s2⟩
      rw [hrm] at h
      rcases rr with er | ur <;> dsimp only [] at h <;>
        exact h2 s p kv (by rw [hrm]; exact h)
    · rw [if_neg hdir] at h
      rcases hop : F.openFile s p oRDONLY 0 with ⟨ro, s2⟩
      have hs2 : s2 = s := by rw [← h3 s p oRDONLY 0, hop]
      rw [hop] at h
      rw [hs2] at h
      rcases ro with eo | hh <;> dsimp only [] at h
      · by_cases he : eo = FsErr.notFound
        · rw [if_pos he] at h; exact h
        · rw [if_neg he] at h; exact h
      · rcases hrd : F.readdir s hh 0 with ⟨rd, s3⟩
        have hs3 : s3 = s := by rw [← h4 s hh 0, hrd]
        rw [hrd] at h
        rw [hs3] at h
        rcases rd with ed | infos <;> dsimp only [] at h
        · rw [h5 s hh] at h; exact h
        · rw [h5 s hh] at h
          rcases hch : removeChildrenAux rec p s infos with ⟨rc, s5, tr⟩
          rw [hch] at h
          have hsub5 : ∀ kv2, kv2 ∈ s5 → kv2 ∈ s := fun kv2 hk =>
            state_sub_children rec p hrec infos s kv2 (by rw [hch]; exact hk)
          rcases rc with _ | (ec | uc) <;> dsimp only [] at h
          · exact hsub5 kv h
          · exact hsub5 kv h
          · rcases hrm : F.remove s5 p with ⟨rr, s6⟩
            rw [hrm] at h
            have hsub6 : ∀ kv2, kv2 ∈ s6 → kv2 ∈ s5 := fun kv2 hk =>
              h2 s5 p kv2 (by rw [hrm]; exact hk)
            rcases rr with er | ur <;> dsimp only [] at h
            · rcases hst2 : F.stat s6 p with ⟨rs2, s7⟩
              have hs7 : s7 = s6 := by rw [← h1 s6 p, hst2]
              rw [hst2] at h
              rw [hs7] at h
              rcases rs2 with e2 | i2 <;> dsimp only [] at h
              · by_cases he2 : e2 = FsErr.notFound
                · rw [if_pos he2] at h; exact hsub5 kv (hsub6 kv h)
                · rw [if_neg he2] at h; exact hsub5 kv (hsub6 kv h)
              · exact hsub5 kv (hsub6 kv h)
            · exact hsub5 kv (hsub6 kv h)

theorem removeAll_state_sub :
    ∀ (fuel : Nat) (s : List (String × Bool)) (p : String) (kv : String × Bool),
      kv ∈ (removeAllGo memFiler fuel s p).2.1 → kv ∈ s := by
  intro fuel
  induction fuel with
  | zero => intro s p kv h; exact h
  | succ n ih =>
    intro s p kv h
    rw [removeAllGo] at h
    exact state_sub_step memFiler (removeAllGo memFiler n) rfl (fun _ _ => rfl)
      (fun s2 p2 kv2 h2 => removeM_sub s2 p2 kv2 h2) (fun _ _ _ _ => rfl)
      (fun _ _ _ => rfl) (fun _ _ => rfl) ih s p kv h

/-! ## Termination of the walk on the concrete filesystem -/

theorem removeChildrenAux_synthetic {σ η : Type} (rec : σ → String → RRes σ η)
    (parent : String) :
    ∀ (infos : List FInfo) (s : σ), (∀ i ∈ infos, i.name = "." ∨ i.name = "..") →
      removeChildrenAux rec parent s infos = (some (Except.ok ()), s, []) := by
  intro infos
  induction infos with
  | nil => intro s h; rfl
  | cons i rest ih =>
    intro s h
    rw [removeChildrenAux_skip rec parent s i rest (h i (by simp))]
    exact ih s (fun x hx => h x (by simp [hx]))

theorem children_isSome (j : Nat)
    (HP : ∀ (t : List (String × Bool)) (p : String), WFfs t →
      (∀ kv ∈ t, kv.1.data.length ≤ p.data.length + j) →
      ((removeAllGo memFiler (j + 1) t p).1).isSome = true) :
    ∀ (infos : List FInfo) (t : List (String × Bool)) (p : String)
      (psegs : List (List Char)),
      WFfs t → p.data = '/' :: joinSegs psegs → (∀ sg ∈ psegs, validSeg sg) →
      (∀ kv ∈ t, kv.1.data.length ≤ p.data.length + (j + 1)) →
      (∀ i ∈ infos, i.name = "." ∨ i.name = ".." ∨ validSeg i.name.data) →
      ((removeChildrenAux (removeAllGo memFiler (j + 1)) p t infos).1).isSome = true := by
  intro infos
  induction infos with
  | nil => intro t p psegs _ _ _ _ _; rfl
  | cons info rest ih =>
    intro t p psegs hWF hp hps hbound hnames
    by_cases hsyn : info.name = "." ∨ info.name = ".."
    · rw [removeChildrenAux_skip _ p t info rest hsyn]
      exact ih t p psegs hWF hp hps hbound (fun i hi => hnames i (by simp [hi]))
    · have hval : validSeg info.name.data := by
        rcases hnames info (by simp) with h1 | h1 | h1
        · exact absurd (Or.inl h1) hsyn
        · exact absurd (Or.inr h1) hsyn
        · exact h1
      simp only [removeChildrenAux, if_neg hsyn]
      have hlen := pathJoin_abs_len p info.name psegs hp hps hval
      have hbound2 : ∀ kv ∈ t, kv.1.data.length ≤ (pathJoin p info.name).data.length + j := by
        intro kv hkv
        have := hbound kv hkv
        omega
      have hchild := HP t (pathJoin p info.name) hWF hbound2
      rcases hrc : removeAllGo memFiler (j + 1) t (pathJoin p info.name) with ⟨r1, sa, tra⟩
      rw [hrc] at hchild
      rcases r1 with _ | (e | u) <;> dsimp only []
      · simp at hchild
      · rfl
      · have hsub : ∀ kv, kv ∈ sa → kv ∈ t := fun kv hk =>
          removeAll_state_sub (j + 1) t (pathJoin p info.name) kv (by rw [hrc]; exact hk)
        have hWF2 : WFfs sa := fun kv hkv => hWF kv (hsub kv hkv)
        have hbound3 : ∀ kv ∈ sa, kv.1.data.length ≤ p.data.length + (j + 1) :=
          fun kv hkv => hbound kv (hsub kv hkv)
        have hrest := ih sa p psegs hWF2 hp hps hbound3
          (fun i hi => hnames i (by simp [hi]))
        rcases hl : removeChildrenAux (removeAllGo memFiler (j + 1)) p sa rest
          with ⟨r2, s2, tr2⟩
        rw [hl] at hrest
        simpa using hrest

theorem removeAll_isSome :
    ∀ (k : Nat) (t : List (String × Bool)) (p : String), WFfs t →
      (∀ kv ∈ t, kv.1.data.length ≤ p.data.length + k) →
      ((removeAllGo memFiler (k + 1) t p).1).isSome = true := by
  intro k
  induction k using Nat.strong_induction_on with
  | _ k IH =>
    intro t p hWF hbound
    rw [removeAllGo]
    unfold removeAllStep
    simp only [memFiler_native, memFiler_stat, memFiler_remove, memFiler_openFile,
      memFiler_readdir, memFiler_close]
    rcases hlk : lookupFs t p with _ | d
    · simp [statM, hlk]
    · have hmem := lookupFs_some_mem t p d hlk
      obtain ⟨psegs, hpsv, hpd⟩ := hWF (p, d) hmem
      simp only [statM, hlk]
      cases d with
      | false =>
        rcases hrm : removeM t p with ⟨rr, t2⟩
        rcases rr with er | ur <;> simp [hrm]
      | true =>
        rw [if_neg (by simp)]
        simp only [openM, readdirM, hlk]
        have hnames : ∀ i ∈ (FInfo.mk "." true :: FInfo.mk ".." true :: childrenOf t p),
            i.name = "." ∨ i.name = ".." ∨ validSeg i.name.data := by
          intro i hi
          simp only [List.mem_cons] at hi
          rcases hi with rfl | rfl | hi
          · left; rfl
          · right; left; rfl
          · right; right
            obtain ⟨kv, hkv, hcn⟩ := childrenOf_spec t p i hi
            exact child_validSeg p kv.1 i.name psegs hpd hpsv (hWF kv hkv) hcn
        cases k with
        | zero =>
          have hemp : childrenOf t p = [] := by
            rcases hch : childrenOf t p with _ | ⟨i, irest⟩
            · rfl
            · exfalso
              have hi : i ∈ childrenOf t p := by rw [hch]; simp
              obtain ⟨kv, hkv, hcn⟩ := childrenOf_spec t p i hi
              obtain ⟨hqd, hne, -⟩ := childNameOf_some p kv.1 i.name hcn
              have hlen := child_key_len p kv.1 i.name hqd hne
              have hb := hbound kv hkv
              omega
          rw [hemp]
          have hsynth : ∀ i ∈ [FInfo.mk "." true, FInfo.mk ".." true],
              i.name = "." ∨ i.name = ".." := by
            intro i hi
            simp only [List.mem_cons, List.not_mem_nil, or_false] at hi
            rcases hi with rfl | rfl
            · exact Or.inl rfl
            · exact Or.inr rfl
          rw [removeChildrenAux_synthetic (removeAllGo memFiler 0) p
            [FInfo.mk "." true, FInfo.mk ".." true] t hsynth]
          dsimp only []
          rcases hrm : removeM t p with ⟨rr, t6⟩
          rcases rr with er | ur <;> dsimp only []
          · rcases hlk6 : lookupFs t6 p with _ | d6
            · simp [statM, hlk6]
            · simp [statM, hlk6]
          · rfl
        | succ j =>
          have hQ := children_isSome j
            (fun t2 p2 h1 h2 => IH j (by omega) t2 p2 h1 h2)
            (FInfo.mk "." true :: FInfo.mk ".." true :: childrenOf t p) t p psegs
            hWF hpd hpsv hbound hnames
          rcases hch : removeChildrenAux (removeAllGo memFiler (j + 1)) p t
            (FInfo.mk "." true :: FInfo.mk ".." true :: childrenOf t p) with ⟨rc, s5, trc⟩
          rw [hch] at hQ
          rcases rc with _ | (ec | uc) <;> dsimp only []
          · simp at hQ
          · rfl
          · rcases hrm : removeM s5 p with ⟨rr, t6⟩
            rcases rr with er | ur <;> dsimp only []
            · rcases hlk6 : lookupFs t6 p with _ | d6
              · simp [statM, hlk6]
              · simp [statM, hlk6]
            · rfl

theorem le_maxKeyLen (t : List (String × Bool)) (kv : String × Bool) (h : kv ∈ t) :
    kv.1.data.length ≤ maxKeyLen t := by
  induction t with
  | nil => simp at h
  | cons x rest ih =>
    simp only [List.mem_cons] at h
    simp only [maxKeyLen, List.foldr_cons]
    rcases h with rfl | h
    · exact le_max_left _ _
    · exact le_trans (ih h) (le_max_right _ _)

/-- **C9.** `RemoveAll` terminates on every finite, well-formed directory
tree of the concrete backing filesystem: some finite recursion depth
suffices (first conjunct, with `maxKeyLen t + 1` as the depth).  Recursion
is applied only to listed children, the synthetic `.` and `..` entries being
skipped outright (second conjunct).  In particular, on the ten-level-deep
subtree with a file at the bottom, `RemoveAll` returns success and removes
every level, leaving the state empty (third conjunct). -/
theorem removeAll_terminates :
    (∀ (t : List (String × Bool)) (p : String), WFfsB t = true →
      ∃ n, ((removeAllGo memFiler n t p).1).isSome = true) ∧
    (∀ (σ η : Type) (rec : σ → String → RRes σ η) (parent : String) (s : σ)
        (info : FInfo) (rest : List FInfo), info.name = "." ∨ info.name = ".." →
      removeChildrenAux rec parent s (info :: rest) = removeChildrenAux rec parent s rest) ∧
    (removeAllGo memFiler 11 tenDeep "/d1").1 = some (Except.ok ()) ∧
    (removeAllGo memFiler 11 tenDeep "/d1").2.1 = [] := by
  refine ⟨?_, ?_, ?_, ?_⟩
  · intro t p hB
    refine ⟨maxKeyLen t + 1, removeAll_isSome (maxKeyLen t) t p (WFfs_of_B t hB) ?_⟩
    intro kv hkv
    have := le_maxKeyLen t kv hkv
    omega
  · intro σ η rec parent s info rest h
    exact removeChildrenAux_skip rec parent s info rest h
  · decide
  · decide

/-- Witness for C9: the termination bound applied to the concrete ten-level
tree, and the skip of a synthetic `.` entry at a concrete child list. -/
theorem removeAll_terminates_witness :
    (∃ n, ((removeAllGo memFiler n tenDeep "/d1").1).isSome = true) ∧
    removeChildrenAux (fun (s : Unit) (_ : String) =>
        ((none : Option (Except FsErr Unit)), s, ([] : List (Ev Unit)))) "/x" ()
      [FInfo.mk "." true] =
      removeChildrenAux (fun (s : Unit) (_ : String) =>
        ((none : Option (Except FsErr Unit)), s, ([] : List (Ev Unit)))) "/x" () [] := by
  constructor
  · exact (removeAll_terminates).1 tenDeep "/d1" (by decide)
  · exact (removeAll_terminates).2.1 Unit Unit _ "/x" () (FInfo.mk "." true) [] (Or.inl rfl)

end Httpfs
